import Mathlib

/-!
A verification development for the `whatif` property-level computation-graph
engine.  The Python sources under `src/domain` are shallowly embedded:

* Python dicts keep insertion order and are modelled as association lists
  (`PropBag`, and `List (String × _)` for outer dicts), with first-match
  lookup and in-place overwrite.
* The dynamic `eval(code, ...)` call on author-supplied expression strings is
  modelled by a small expression AST (`Expr`) together with an evaluator
  `evalExpr` returning `Option Value`, where `none` stands for "the Python
  evaluation raised" (NameError, TypeError, SyntaxError, ...).  Numeric
  values are modelled as integers; no claim below depends on float or date
  arithmetic, only on success/failure and on which value is propagated.
* The NetworkX `DiGraph` used by `ComputationGraphExecutor` is modelled by
  `NxDiGraph`: at most one edge per ordered node pair, with `add_edge`
  updating the attributes of an existing edge in place, and `add_node`
  merging attribute dicts — exactly NetworkX semantics.
* NetworkX exceptions: `lexicographical_topological_sort` raises
  `NetworkXUnfeasible` on a cyclic input.  In the NetworkX class hierarchy
  `NetworkXUnfeasible` derives from `NetworkXAlgorithmError`, which is a
  sibling of `NetworkXError` (both derive from `NetworkXException`); an
  `except nx.NetworkXError` clause therefore does not catch it.  The model
  keeps the two apart in `NxException`.
-/

/-- Expressions of the formula sub-language (the strings fed to Python
`eval` in `ComputationGraphExecutor._execute_node`).  Arithmetic is over the
integer fragment; evaluation failure (`none`) models a raised exception. -/
inductive Expr where
  | intLit (n : Int) : Expr
  | boolLit (b : Bool) : Expr
  | noneLit : Expr
  | var (x : String) : Expr
  | add (a b : Expr) : Expr
  | mul (a b : Expr) : Expr
deriving DecidableEq

/-- Python runtime values that can appear in a node's property bag.
`vexpr` holds a computation's `code` attribute (an expression of the formula
sub-language, stored as a string in the source and as an AST here). -/
inductive Value where
  | vnone : Value
  | vbool (b : Bool) : Value
  | vint (n : Int) : Value
  | vstr (s : String) : Value
  | vexpr (e : Expr) : Value
deriving DecidableEq

namespace Value

/-- Python truthiness of a value (`if x:`). -/
def truthy : Value → Bool
  | vnone => false
  | vbool b => b
  | vint n => n ≠ 0
  | vstr s => s ≠ ""
  | vexpr _ => true

/-- Python `==` on the modelled values (`True == 1`, `False == 0`). -/
def pyEq : Value → Value → Bool
  | vnone, vnone => true
  | vbool a, vbool b => a = b
  | vint a, vint b => a = b
  | vstr a, vstr b => a = b
  | vbool a, vint b => (if a then (1 : Int) else 0) = b
  | vint a, vbool b => a = (if b then (1 : Int) else 0)
  | vexpr a, vexpr b => a = b
  | _, _ => false

/-- Coercion to a Python number for arithmetic (`True + 1 == 2`);
`none` models a `TypeError`. -/
def toNum : Value → Option Int
  | vint n => some n
  | vbool b => some (if b then 1 else 0)
  | _ => none

end Value

/-- A Python dict from property names to values, in insertion order. -/
abbrev PropBag := List (String × Value)

/-- First-match association-list lookup: Python `d[k]` / `k in d`. -/
def pyGet {α : Type} : List (String × α) → String → Option α
  | [], _ => none
  | (k, v) :: rest, key => if k = key then some v else pyGet rest key

/-- Python `d.get(k)`, collapsing an absent key to `None`. -/
def bagGetD (bag : PropBag) (key : String) : Value :=
  (pyGet bag key).getD Value.vnone

/-- Python `d[k] = v`: overwrite in place (keeping the key's position) or
append a fresh key at the end. -/
def pySet {α : Type} : List (String × α) → String → α → List (String × α)
  | [], key, v => [(key, v)]
  | (k, w) :: rest, key, v =>
      if k = key then (k, v) :: rest else (k, w) :: pySet rest key v

/-- Python `d.update(other)`: fold the entries of `other` into `d`. -/
def pyUpdate {α : Type} (d other : List (String × α)) : List (String × α) :=
  other.foldl (fun acc kv => pySet acc kv.1 kv.2) d

/-- Drop a key from a dict (the comprehension `{k: v for ... if k != key}`). -/
def pyErase {α : Type} (d : List (String × α)) (key : String) : List (String × α) :=
  d.filter (fun kv => kv.1 ≠ key)

/-- Evaluate a formula against the `variables` environment gathered from
`DEPENDS_ON` edges; `none` models a raised Python exception (an unbound
name raises `NameError`, arithmetic on a non-number raises `TypeError`). -/
def evalExpr : Expr → PropBag → Option Value
  | .intLit n, _ => some (.vint n)
  | .boolLit b, _ => some (.vbool b)
  | .noneLit, _ => some .vnone
  | .var x, env => pyGet env x
  | .add a b, env => do
      let na ← (← evalExpr a env).toNum
      let nb ← (← evalExpr b env).toNum
      pure (.vint (na + nb))
  | .mul a b, env => do
      let na ← (← evalExpr a env).toNum
      let nb ← (← evalExpr b env).toNum
      pure (.vint (na * nb))

/-! ## The immutable graph model (`src/domain/models`) -/

/-- `ComputationRelationType` (computation_relation_type.py). -/
inductive ComputationRelationType where
  | DEPENDS_ON : ComputationRelationType
  | OUTPUT_TO : ComputationRelationType
deriving DecidableEq

/-- `ComputationEngine` (computation_engine.py). -/
inductive ComputationEngine where
  | neo4j : ComputationEngine
  | python : ComputationEngine
  | external_ : ComputationEngine
deriving DecidableEq

/-- `.value` of a `ComputationEngine` member. -/
def ComputationEngine.value : ComputationEngine → String
  | .neo4j => "neo4j"
  | .python => "python"
  | .external_ => "external"

/-- `ComputationLevel` (computation_level.py). -/
inductive ComputationLevel where
  | property_ : ComputationLevel
  | node : ComputationLevel
  | graph : ComputationLevel
deriving DecidableEq

/-- `InputSpec` (io_spec.py). -/
structure InputSpec where
  source_type : String
  entity_type : String
  property_name : Option String := none
  graph_name : Option String := none
  node_id : Option String := none
deriving DecidableEq

/-- `OutputSpec` (io_spec.py). -/
structure OutputSpec where
  target_type : String
  entity_type : String
  property_name : Option String := none
  graph_name : Option String := none
deriving DecidableEq

/-- `ComputationNode` (computation_node.py); `code` is the formula AST. -/
structure ComputationNode where
  id : String
  name : String
  level : ComputationLevel
  inputs : List InputSpec
  outputs : List OutputSpec
  code : Expr
  engine : ComputationEngine
  properties : PropBag := []
  priority : Int := 0
deriving DecidableEq

/-- `ComputationRelationship` (computation_relationship.py). -/
structure ComputationRelationship where
  id : String
  source_id : String
  target_id : String
  name : String
  relation_type : ComputationRelationType
  level : String
  datasource : Option OutputSpec := none
  data_output : Option OutputSpec := none
  properties : PropBag := []
deriving DecidableEq

/-- `ComputationGraph` (computation_graph.py): the two mappings are Python
dicts, modelled as insertion-ordered association lists.  The derived
`outgoing`/`incoming` indexes are kept for completeness but are not read by
the executor. -/
structure ComputationGraph where
  id : String
  computation_nodes : List (String × ComputationNode) := []
  computation_relationships : List (String × ComputationRelationship) := []
  outgoing : List (String × List String) := []
  incoming : List (String × List String) := []
  base_graph_id : Option String := none
deriving DecidableEq

namespace ComputationGraph

/-- `get_output_properties_by_data_node`: output property names per data
node, from `OUTPUT_TO` relationships whose target is not a computation node
and whose `data_output.property_name` is truthy. -/
def get_output_properties_by_data_node (g : ComputationGraph) :
    List (String × List String) :=
  g.computation_relationships.foldl
    (fun out kv =>
      let rel := kv.2
      if rel.relation_type ≠ ComputationRelationType.OUTPUT_TO then out
      else if (pyGet g.computation_nodes rel.target_id).isSome then out
      else
        match rel.data_output with
        | none => out
        | some spec =>
            match spec.property_name with
            | none => out
            | some p =>
                if p = "" then out
                else
                  match pyGet out rel.target_id with
                  | none => pySet out rel.target_id [p]
                  | some ps => pySet out rel.target_id (ps ++ [p]))
    []

end ComputationGraph

/-! ## The NetworkX working graph (`nx.DiGraph`) -/

/-- Attributes of a working-graph edge: `relation_type` and `property_name`
as set by `_build_networkx_graph`. -/
structure EdgeAttr where
  relation_type : String
  property_name : Option String
deriving DecidableEq

/-- A `nx.DiGraph`: insertion-ordered node attribute dicts and at most one
attribute-carrying edge per ordered pair of nodes. -/
structure NxDiGraph where
  nodes : List (String × PropBag)
  edges : List (String × String × EdgeAttr)
deriving DecidableEq

namespace NxDiGraph

/-- `node_id in G.nodes`. -/
def hasNode (g : NxDiGraph) (id : String) : Bool :=
  (pyGet g.nodes id).isSome

/-- `G.nodes[id]` as a total lookup. -/
def nodeBag (g : NxDiGraph) (id : String) : Option PropBag :=
  pyGet g.nodes id

/-- `G.add_node(id, **attrs)`: merge into an existing node's attribute dict,
or append a fresh node. -/
def addNode (g : NxDiGraph) (id : String) (attrs : PropBag) : NxDiGraph :=
  match pyGet g.nodes id with
  | some bag => { g with nodes := pySet g.nodes id (pyUpdate bag attrs) }
  | none => { g with nodes := g.nodes ++ [(id, attrs)] }

/-- Replace the attribute dict of one edge in place. -/
def setEdgeAttr : List (String × String × EdgeAttr) → String → String →
    EdgeAttr → List (String × String × EdgeAttr)
  | [], s, t, a => [(s, t, a)]
  | (u, v, b) :: rest, s, t, a =>
      if u = s ∧ v = t then (u, v, a) :: rest
      else (u, v, b) :: setEdgeAttr rest s t a

/-- Whether the graph already has an edge `(s, t)`. -/
def hasEdge (g : NxDiGraph) (s t : String) : Bool :=
  g.edges.any (fun e => e.1 = s ∧ e.2.1 = t)

/-- `G.add_edge(s, t, **attrs)`: silently add missing endpoints, then create
the edge or update the existing edge's attributes in place (NetworkX keeps
one edge per ordered pair in a `DiGraph`). -/
def addEdge (g : NxDiGraph) (s t : String) (a : EdgeAttr) : NxDiGraph :=
  let g := g.addNode s []
  let g := g.addNode t []
  { g with edges := setEdgeAttr g.edges s t a }

/-- Attributes of edge `(s, t)` if present. -/
def edgeAttr (g : NxDiGraph) (s t : String) : Option EdgeAttr :=
  (g.edges.find? (fun e => e.1 = s ∧ e.2.1 = t)).map (fun e => e.2.2)

/-- `G.nodes[id][prop] = value` (no-op on a vertex absent from the graph;
callers only use it with vertices of `G`). -/
def setNodeProp (g : NxDiGraph) (id prop : String) (v : Value) : NxDiGraph :=
  { g with
    nodes := g.nodes.map (fun kv => if kv.1 = id then (kv.1, pySet kv.2 prop v) else kv) }

end NxDiGraph

/-! ## `ComputationGraphExecutor` (computation_graph_executor.py) -/

/-- The executor's state: the immutable model, the caller's initial data
map, and the private mutable working graph `G`. -/
structure Executor where
  graph : ComputationGraph
  node_data_map : List (String × PropBag)
  G : NxDiGraph
deriving DecidableEq

/-- One data node of `node_data_map`: its caller-supplied bag followed by
the engine bookkeeping keys `is_computation=False, priority=0`. -/
def dataNodeStep (g : NxDiGraph) (kv : String × PropBag) : NxDiGraph :=
  g.addNode kv.1
    (kv.2 ++ [("is_computation", Value.vbool false), ("priority", Value.vint 0)])

/-- One computation node: static metadata plus `is_computation=True` and the
author-assigned priority. -/
def compNodeStep (g : NxDiGraph) (kv : String × ComputationNode) : NxDiGraph :=
  g.addNode kv.1
    [("name", Value.vstr kv.2.name), ("code", Value.vexpr kv.2.code),
     ("engine", Value.vstr kv.2.engine.value),
     ("is_computation", Value.vbool true), ("priority", Value.vint kv.2.priority)]

/-- One relationship: a single directed edge tagged with its relation type
and the property name of its `datasource`/`data_output` spec. -/
def relEdgeStep (g : NxDiGraph) (kv : String × ComputationRelationship) : NxDiGraph :=
  match kv.2.relation_type with
  | .DEPENDS_ON =>
      g.addEdge kv.2.source_id kv.2.target_id
        ⟨"DEPENDS_ON", match kv.2.datasource with
                       | some ds => ds.property_name
                       | none => none⟩
  | .OUTPUT_TO =>
      g.addEdge kv.2.source_id kv.2.target_id
        ⟨"OUTPUT_TO", match kv.2.data_output with
                      | some dd => dd.property_name
                      | none => none⟩

/-- `_build_networkx_graph`: data nodes with their bags plus
`is_computation=False, priority=0`; computation nodes with
`name/code/engine/is_computation=True/priority`; one edge per relationship,
tagged with its relation type and the single property it concerns. -/
def build_networkx_graph (graph : ComputationGraph)
    (node_data_map : List (String × PropBag)) : NxDiGraph :=
  graph.computation_relationships.foldl relEdgeStep
    (graph.computation_nodes.foldl compNodeStep
      (node_data_map.foldl dataNodeStep { nodes := [], edges := [] }))

/-- `ComputationGraphExecutor.__init__`. -/
def mkExecutor (graph : ComputationGraph)
    (node_data_map : List (String × PropBag)) : Executor :=
  ⟨graph, node_data_map, build_networkx_graph graph node_data_map⟩

/-! ## Dependency graph and topological order -/

/-- The plain directed graph handed to the topological sort
(`_get_dependency_graph` builds a second `nx.DiGraph` with attribute-free
edges). -/
structure DepGraph where
  nodes : List String
  edges : List (String × String)
deriving DecidableEq

/-- `dep_graph.add_edge(u, v)`: add missing endpoints; at most one edge per
ordered pair. -/
def DepGraph.addEdge (g : DepGraph) (u v : String) : DepGraph :=
  let ns := g.nodes
  let ns := if u ∈ ns then ns else ns ++ [u]
  let ns := if v ∈ ns then ns else ns ++ [v]
  { nodes := ns,
    edges := if (u, v) ∈ g.edges then g.edges else g.edges ++ [(u, v)] }

/-- `(writer_comp, data_node, property_name)` triples of `OUTPUT_TO`
relationships carrying a `data_output` spec, in relationship order. -/
def outputTriples (graph : ComputationGraph) : List (String × String × Option String) :=
  graph.computation_relationships.filterMap
    (fun kv =>
      match kv.2.relation_type, kv.2.data_output with
      | .OUTPUT_TO, some dd => some (kv.2.source_id, kv.2.target_id, dd.property_name)
      | _, _ => none)

/-- `(data_node, reader_comp, property_name)` triples of `DEPENDS_ON`
relationships carrying a `datasource` spec, in relationship order. -/
def readTriples (graph : ComputationGraph) : List (String × String × Option String) :=
  graph.computation_relationships.filterMap
    (fun kv =>
      match kv.2.relation_type, kv.2.datasource with
      | .DEPENDS_ON, some ds => some (kv.2.source_id, kv.2.target_id, ds.property_name)
      | _, _ => none)

/-- `_get_dependency_graph`: all working-graph vertices; the working graph's
`DEPENDS_ON` edges verbatim; plus one inferred writer-before-reader edge for
every `(comp A writes (D, P), comp B reads (D, P), A ≠ B)` pair taken from
the relationship list (not from the working graph, which keeps only one edge
per node pair). -/
def depEdgeStep (dep : DepGraph) (e : String × String × EdgeAttr) : DepGraph :=
  if e.2.2.relation_type = "DEPENDS_ON" then dep.addEdge e.1 e.2.1 else dep

/-- Inner loop of the writer-before-reader inference: one writer triple
`out = (A, D, P)` against one reader triple `rd = (D', B, P')`. -/
def inferInner (out : String × String × Option String) (dep : DepGraph)
    (rd : String × String × Option String) : DepGraph :=
  if out.2.1 = rd.1 ∧ out.2.2 = rd.2.2 ∧ out.1 ≠ rd.2.1 then
    dep.addEdge out.1 rd.2.1
  else dep

/-- Outer loop of the inference: one writer triple against every reader. -/
def inferOuter (reads : List (String × String × Option String)) (dep : DepGraph)
    (out : String × String × Option String) : DepGraph :=
  reads.foldl (inferInner out) dep

def get_dependency_graph (E : Executor) : DepGraph :=
  (outputTriples E.graph).foldl (inferOuter (readTriples E.graph))
    (E.G.edges.foldl depEdgeStep { nodes := E.G.nodes.map Prod.fst, edges := [] })

/-- The composite sort key `(priority, node_id)`; the working graph stores
every vertex's priority as an integer (`.get("priority", 0)`). -/
def sortKey (g : NxDiGraph) (n : String) : Int × String :=
  match g.nodeBag n with
  | some bag =>
      match pyGet bag "priority" with
      | some (Value.vint k) => (k, n)
      | _ => (0, n)
  | none => (0, n)

/-- Strict lexicographic comparison of sort keys (Python tuple `<`, with
strings compared by code points — the order on their character lists). -/
def keyLt (a b : Int × String) : Prop :=
  a.1 < b.1 ∨ (a.1 = b.1 ∧ a.2.data < b.2.data)

instance (a b : Int × String) : Decidable (keyLt a b) := by
  unfold keyLt; infer_instance

/-- Vertices of the remaining set `R` with no incoming edge from `R`
(the zero-in-degree heap contents of Kahn's algorithm at this step; edges
out of already-emitted vertices have been discounted). -/
def eligible (R : List String) (edges : List (String × String)) : List String :=
  R.filter (fun n => ¬ edges.any (fun e => e.1 ∈ R ∧ e.2 = n))

/-- Running key-minimum of a candidate list. -/
def minBy (key : String → Int × String) (n : String) : List String → String
  | [] => n
  | m :: rest =>
      if keyLt (key n) (key m) then minBy key n rest else minBy key m rest

/-- The minimal element of a candidate list under `keyLt` (the heap pop);
keys `(priority, node_id)` of distinct vertices are distinct, so this is
exactly the element NetworkX's heap yields next. -/
def pickMin (key : String → Int × String) : List String → Option String
  | [] => none
  | n :: rest => some (minBy key n rest)

/-- One NetworkX exception class matters for `_get_execution_order`:
`NetworkXUnfeasible` ("Graph contains a cycle...") is not a subclass of the
caught `NetworkXError`, so the model keeps them distinct. -/
inductive NxException where
  | networkXError : NxException
  | unfeasible : NxException
deriving DecidableEq

instance {e a : Type} [DecidableEq e] [DecidableEq a] : DecidableEq (Except e a)
  | .ok x, .ok y =>
      if h : x = y then .isTrue (by rw [h]) else .isFalse (by intro hc; injection hc; exact h (by assumption))
  | .error x, .error y =>
      if h : x = y then .isTrue (by rw [h]) else .isFalse (by intro hc; injection hc; exact h (by assumption))
  | .ok _, .error _ => .isFalse (by intro hc; exact Except.noConfusion hc)
  | .error _, .ok _ => .isFalse (by intro hc; exact Except.noConfusion hc)

/-- Kahn's algorithm with the lexicographic heap, fuelled by the vertex
count (each step removes exactly one vertex, so the fuel never runs out
ahead of a genuine cycle); `none` models `NetworkXUnfeasible`. -/
def lexTopoAux (key : String → Int × String) (edges : List (String × String)) :
    Nat → List String → Option (List String)
  | 0, R => if R = [] then some [] else none
  | fuel + 1, R =>
      if R = [] then some []
      else
        match pickMin key (eligible R edges) with
        | none => none
        | some n => (lexTopoAux key edges fuel (R.erase n)).map (n :: ·)

/-- `nx.lexicographical_topological_sort(dep_graph, key)` consumed by
`list(...)`: the full order, or `NetworkXUnfeasible` on a cycle. -/
def lexicographical_topological_sort (dep : DepGraph)
    (key : String → Int × String) : Except NxException (List String) :=
  match lexTopoAux key dep.edges dep.nodes.length dep.nodes with
  | some order => .ok order
  | none => .error .unfeasible

/-- `_get_execution_order`: `try: return list(...) except nx.NetworkXError:
return None` — the `except` clause catches only `NetworkXError`, and the
cycle exception `NetworkXUnfeasible` is not one, so it propagates. -/
def get_execution_order (E : Executor) : Except NxException (Option (List String)) :=
  match lexicographical_topological_sort (get_dependency_graph E) (sortKey E.G) with
  | .ok order => .ok (some order)
  | .error .networkXError => .ok none
  | .error e => .error e

/-! ## Per-node evaluation and the public executor operations -/

/-- The `variables` dict of `_execute_node`: fold the relationship list, and
for every `DEPENDS_ON` relationship targeting this node whose `datasource`
carries a truthy property name and whose source is a working-graph vertex,
bind the property name to the source's current value (`None` when the
source lacks the property). -/
def gatherVariables (E : Executor) (node_id : String) : PropBag :=
  E.graph.computation_relationships.foldl
    (fun vars kv =>
      let rel := kv.2
      if rel.relation_type ≠ ComputationRelationType.DEPENDS_ON ∨ rel.target_id ≠ node_id then
        vars
      else
        match rel.datasource with
        | none => vars
        | some ds =>
            match ds.property_name with
            | none => vars
            | some p =>
                if p = "" then vars
                else
                  match E.G.nodeBag rel.source_id with
                  | none => vars
                  | some srcBag => pySet vars p (bagGetD srcBag p))
    []

/-- The `code` attribute of a vertex, when it holds a formula
(`node_data.get("code", "")`; a missing or non-formula value makes the
subsequent `eval` raise, which the `except` swallows). -/
def vertexCode (bag : PropBag) : Option Expr :=
  match pyGet bag "code" with
  | some (Value.vexpr e) => some e
  | _ => none

/-- The `eval` step of `_execute_node`: `none` models a raised exception. -/
def evalVertex (bag : PropBag) (vars : PropBag) : Option Value :=
  match vertexCode bag with
  | some e => evalExpr e vars
  | none => none

/-- One successor visit in the success branch of `_execute_node`: if this
edge leaves the executing node and is `OUTPUT_TO` with a truthy property
name, write the result into the target's bag. -/
def writeStep (node_id : String) (result : Value) (acc : NxDiGraph)
    (e : String × String × EdgeAttr) : NxDiGraph :=
  if e.1 = node_id ∧ e.2.2.relation_type = "OUTPUT_TO" then
    match e.2.2.property_name with
    | some p => if p = "" then acc else acc.setNodeProp e.2.1 p result
    | none => acc
  else acc

/-- The success branch of `_execute_node`: for every successor whose edge is
`OUTPUT_TO` with a truthy property name, write the single result value into
that successor's bag (node-attribute writes never change the edge list being
iterated). -/
def writeOutputs (g : NxDiGraph) (node_id : String) (result : Value) : NxDiGraph :=
  g.edges.foldl (writeStep node_id result) g

/-- `_execute_node`: skip non-computation vertices; gather variables,
evaluate the code, and on success broadcast the result along `OUTPUT_TO`
edges; on failure leave the working graph untouched and carry on.  (`execute`
only calls it on vertices of `G`, so the missing-vertex fallback is inert.) -/
def execute_node (E : Executor) (node_id : String) : Executor :=
  match E.G.nodeBag node_id with
  | none => E
  | some bag =>
      if ¬ (bagGetD bag "is_computation").truthy then E
      else
        match evalVertex bag (gatherVariables E node_id) with
        | none => E
        | some result => { E with G := writeOutputs E.G node_id result }

/-- `execute`: compute the order (a cycle raises `NetworkXUnfeasible` out of
`_get_execution_order`, see above), run each vertex in order, return `True`;
the `order is None` branch would return `False`. -/
def execute (E : Executor) : Except NxException (Executor × Bool) :=
  match get_execution_order E with
  | .error e => .error e
  | .ok none => .ok (E, false)
  | .ok (some order) => .ok (order.foldl execute_node E, true)

/-- `update_node_property`: mutate a data-node property in the working
graph; a vertex absent from `G` makes it a silent no-op. -/
def update_node_property (E : Executor) (node_id property_name : String)
    (v : Value) : Executor :=
  if E.G.hasNode node_id then { E with G := E.G.setNodeProp node_id property_name v }
  else E

/-- `snapshot_data_nodes`: a (deep) copy of every vertex bag whose
`is_computation` attribute is falsy. -/
def snapshot_data_nodes (E : Executor) : List (String × PropBag) :=
  E.G.nodes.filter (fun kv => ¬ (bagGetD kv.2 "is_computation").truthy)

/-- One step of `restore_data_nodes`: clear the vertex bag of one
snapshotted node and overwrite it with the snapshot copy (no-op for a
vertex that left the graph — vertices are never removed, so this branch is
inert). -/
def restoreStep (acc : Executor) (kv : String × PropBag) : Executor :=
  if acc.G.hasNode kv.1 then
    { acc with
      G := { acc.G with
             nodes := acc.G.nodes.map
               (fun nv => if nv.1 = kv.1 then (nv.1, kv.2) else nv) } }
  else acc

/-- `restore_data_nodes`: for every snapshotted vertex still in `G`, clear
its bag and overwrite it with the snapshot copy. -/
def restore_data_nodes (E : Executor) (snapshot : List (String × PropBag)) : Executor :=
  snapshot.foldl restoreStep E

/-- `get_node_data`: the full attribute dict of a vertex (a plain
`dict(...)` copy, nothing excluded), `None` for an unknown vertex. -/
def get_node_data (E : Executor) (node_id : String) : Option PropBag :=
  E.G.nodeBag node_id

/-- `get_all_data_nodes`: every vertex with a falsy `is_computation`
attribute, with exactly the `is_computation` key dropped from its bag. -/
def get_all_data_nodes (E : Executor) : List (String × PropBag) :=
  (E.G.nodes.filter (fun kv => ¬ (bagGetD kv.2 "is_computation").truthy)).map
    (fun kv => (kv.1, pyErase kv.2 "is_computation"))

/-! ## `WhatIfSimulator` (what_if_simulator.py) -/

/-- `NodeError` (never produced: "executor does not yet return errors"). -/
structure NodeError where
  node_id : String
  message : String
deriving DecidableEq

/-- One entry of the scenario diff. -/
structure DiffEntry where
  node_id : String
  property_name : String
  baseline_value : Value
  scenario_value : Value
deriving DecidableEq

/-- `_compute_diff`: for every node in either state and every property in
either bag, emit an entry when the two `.get` values differ (an absent node
or property reads as `None`).  Python iterates the key sets in unspecified
order; the model fixes left-to-right first-occurrence order, and the claims
below are stated on membership only. -/
def compute_diff (baseline scenario : List (String × PropBag)) : List DiffEntry :=
  ((baseline.map Prod.fst ++ scenario.map Prod.fst).dedup).flatMap
    (fun n =>
      let bp := (pyGet baseline n).getD []
      let sp := (pyGet scenario n).getD []
      ((bp.map Prod.fst ++ sp.map Prod.fst).dedup).filterMap
        (fun p =>
          let bv := bagGetD bp p
          let sv := bagGetD sp p
          if bv.pyEq sv then none else some ⟨n, p, bv, sv⟩))

/-- `_property_changes_to_overrides`: group `(node_id, prop, value)` triples
into a nested dict. -/
def property_changes_to_overrides (changes : List (String × String × Value)) :
    List (String × PropBag) :=
  changes.foldl
    (fun acc c =>
      match pyGet acc c.1 with
      | none => pySet acc c.1 (pySet [] c.2.1 c.2.2)
      | some bag => pySet acc c.1 (pySet bag c.2.1 c.2.2))
    []

/-- `_build_outputs_per_node`: restrict the scenario state to the properties
that `OUTPUT_TO` edges mark as data-node outputs. -/
def build_outputs_per_node (graph : ComputationGraph)
    (scenario : List (String × PropBag)) : List (String × PropBag) :=
  (graph.get_output_properties_by_data_node).foldl
    (fun out kv =>
      let nodeState := (pyGet scenario kv.1).getD []
      pySet out kv.1
        (kv.2.foldl
          (fun bag p =>
            match pyGet nodeState p with
            | some v => pySet bag p v
            | none => bag)
          []))
    []

/-- Insertion sort on strings (Python `sorted` over distinct ids). -/
def insertSorted (x : String) : List String → List String
  | [] => [x]
  | y :: rest => if x ≤ y then x :: y :: rest else y :: insertSorted x rest

/-- Python `sorted(...)` of a list of strings. -/
def sortStrings (l : List String) : List String :=
  l.foldr insertSorted []

/-- `ScenarioRunResult`. -/
structure ScenarioRunResult where
  baseline : List (String × PropBag)
  scenario : List (String × PropBag)
  diff : List DiffEntry
  overrides : List (String × PropBag)
  outputs_per_node : List (String × PropBag)
  affected_node_ids : List String
  errors : List NodeError
  success : Bool
deriving DecidableEq

/-- The override loop of `run_scenario`: apply each `(node_id, property,
value)` change through `update_node_property`. -/
def applyChanges (E : Executor) (changes : List (String × String × Value)) : Executor :=
  changes.foldl (fun acc c => update_node_property acc c.1 c.2.1 c.2.2) E

/-- `WhatIfSimulator.run_scenario`: snapshot, apply overrides, execute,
diff, and restore in a `finally`.  The executor's `execute` can raise
(`NetworkXUnfeasible` on a cycle); the `finally` still restores, so the
model returns the restored executor on both paths.  The boolean result of
`execute` is discarded, and `errors`/`success` are the constant
placeholders. -/
def run_scenario (E : Executor) (property_changes : List (String × String × Value)) :
    Except NxException ScenarioRunResult × Executor :=
  let snapshot := snapshot_data_nodes E
  let baseline := get_all_data_nodes E
  let E1 := applyChanges E property_changes
  match execute E1 with
  | .error e => (.error e, restore_data_nodes E1 snapshot)
  | .ok (E2, _) =>
      let scenario := get_all_data_nodes E2
      let diff := compute_diff baseline scenario
      let result : ScenarioRunResult :=
        { baseline := baseline
          scenario := scenario
          diff := diff
          overrides := property_changes_to_overrides property_changes
          outputs_per_node := build_outputs_per_node E2.graph scenario
          affected_node_ids := sortStrings ((diff.map DiffEntry.node_id).dedup)
          errors := []
          success := true }
      (.ok result, restore_data_nodes E2 snapshot)

/-! ## General lemmas about the lexicographical topological sort -/

/-- `u` occurs before an occurrence of `v` in `l` (scanning to the first
occurrence of `u`). -/
def precedesB (l : List String) (u v : String) : Bool :=
  match l with
  | [] => false
  | x :: xs => if x = u then xs.any (fun y => y = v) else precedesB xs u v

/-! ## Auxiliary definitions, step predicates and concrete instances used by the proofs -/

/-- Remaining-vertex sets reachable during the run of the sort: the initial
set, and every set obtained by popping the minimal eligible vertex. -/
inductive SortReaches (key : String → Int × String) (edges : List (String × String)) :
    List String → List String → Prop
  | refl (R : List String) : SortReaches key edges R R
  | step {R R' : List String} (n : String) :
      pickMin key (eligible R edges) = some n →
      SortReaches key edges (R.erase n) R' → SortReaches key edges R R'

/-- Well-formedness of a `DepGraph`: edge endpoints are vertices. -/
def DepWF (dep : DepGraph) : Prop :=
  ∀ e ∈ dep.edges, e.1 ∈ dep.nodes ∧ e.2 ∈ dep.nodes

/-- A fold step that either returns the accumulator or calls `addEdge`. -/
def DepStep {α : Type} (step : DepGraph → α → DepGraph) : Prop :=
  ∀ dep a, step dep a = dep ∨ ∃ u v, step dep a = dep.addEdge u v

/-- The working graph has a `DEPENDS_ON`-labelled edge at `(s, t)`. -/
def HasDepEdge (g : NxDiGraph) (s t : String) : Prop :=
  ∃ a, (s, t, a) ∈ g.edges ∧ a.relation_type = "DEPENDS_ON"

/-- A computation node with trivial spec lists, used in concrete graphs. -/
def mkCompNode (i : String) (pr : Int) (c : Expr) : ComputationNode :=
  { id := i, name := i, level := .property_, inputs := [], outputs := [],
    code := c, engine := .python, properties := [], priority := pr }

/-- An `OutputSpec` naming one property. -/
def mkSpec (p : String) : OutputSpec :=
  { target_type := "property", entity_type := "E", property_name := some p }

/-- C1 counterexample graph: computations `a`, `b`; relationship `r1` is
`DEPENDS_ON b → a` (reading `p`), and the later `r2` is `OUTPUT_TO b → a`
(writing `q`).  Both share the ordered pair `(b, a)`, so in the working
graph `r2` overwrites the edge attributes and the `DEPENDS_ON` label is
lost. -/
def c1Graph : ComputationGraph :=
  { id := "g1"
    computation_nodes := [("a", mkCompNode "a" 0 (.intLit 0)),
                          ("b", mkCompNode "b" 0 (.intLit 0))]
    computation_relationships :=
      [("r1", { id := "r1", source_id := "b", target_id := "a", name := "r1",
                relation_type := .DEPENDS_ON, level := "property",
                datasource := some (mkSpec "p") }),
       ("r2", { id := "r2", source_id := "b", target_id := "a", name := "r2",
                relation_type := .OUTPUT_TO, level := "property",
                data_output := some (mkSpec "q") })] }

/-- C5 witness graph: two sibling computations with priorities 1 and 3 and
no relationships at all. -/
def c5Graph : ComputationGraph :=
  { id := "g5"
    computation_nodes := [("s2", mkCompNode "s2" 3 (.intLit 0)),
                          ("s1", mkCompNode "s1" 1 (.intLit 0))] }

/-- C1 witness relationships: `calc1` writes `d.p`; `calc2` reads `d.p`. -/
def c1wRelW1 : ComputationRelationship :=
  { id := "w1", source_id := "calc1", target_id := "d", name := "w1",
    relation_type := .OUTPUT_TO, level := "property",
    data_output := some (mkSpec "p") }

def c1wRelW2 : ComputationRelationship :=
  { id := "w2", source_id := "d", target_id := "calc2", name := "w2",
    relation_type := .DEPENDS_ON, level := "property",
    datasource := some (mkSpec "p") }

/-- C1 witness graph: a two-computation chain through data node `d`. -/
def c1wGraph : ComputationGraph :=
  { id := "g1w"
    computation_nodes := [("calc2", mkCompNode "calc2" 0 (.var "p")),
                          ("calc1", mkCompNode "calc1" 0 (.intLit 7))]
    computation_relationships := [("w1", c1wRelW1), ("w2", c1wRelW2)] }

/-- C2 failing input: computations `a` and `b` form an inferred
writer-before-reader cycle (`a` writes `d.p` which `b` reads; `b` writes
`e.q` which `a` reads). -/
def c2Graph : ComputationGraph :=
  { id := "g2"
    computation_nodes := [("a", mkCompNode "a" 0 (.var "q")),
                          ("b", mkCompNode "b" 0 (.var "p"))]
    computation_relationships :=
      [("r1", { id := "r1", source_id := "a", target_id := "d", name := "r1",
                relation_type := .OUTPUT_TO, level := "property",
                data_output := some (mkSpec "p") }),
       ("r2", { id := "r2", source_id := "d", target_id := "b", name := "r2",
                relation_type := .DEPENDS_ON, level := "property",
                datasource := some (mkSpec "p") }),
       ("r3", { id := "r3", source_id := "b", target_id := "e", name := "r3",
                relation_type := .OUTPUT_TO, level := "property",
                data_output := some (mkSpec "q") }),
       ("r4", { id := "r4", source_id := "e", target_id := "a", name := "r4",
                relation_type := .DEPENDS_ON, level := "property",
                datasource := some (mkSpec "q") })] }

/-- Small executor shared by several witnesses: one data node `d` with
property `x = 1`, one computation `c` reading `d.x` and writing `d.y`. -/
def wGraph : ComputationGraph :=
  { id := "gw"
    computation_nodes := [("c", mkCompNode "c" 0 (.var "x"))]
    computation_relationships :=
      [("rr", { id := "rr", source_id := "d", target_id := "c", name := "rr",
                relation_type := .DEPENDS_ON, level := "property",
                datasource := some (mkSpec "x") }),
       ("rw", { id := "rw", source_id := "c", target_id := "d", name := "rw",
                relation_type := .OUTPUT_TO, level := "property",
                data_output := some (mkSpec "y") })] }

def wExec : Executor := mkExecutor wGraph [("d", [("x", Value.vint 1)])]

/-- C7 witness graph: `c1`'s formula references an unbound name, so its
evaluation raises; the data vertex `d` is still visited afterwards. -/
def c7Graph : ComputationGraph :=
  { id := "g7"
    computation_nodes := [("c1", mkCompNode "c1" 0 (.var "missing"))]
    computation_relationships :=
      [("o1", { id := "o1", source_id := "c1", target_id := "d", name := "o1",
                relation_type := .OUTPUT_TO, level := "property",
                data_output := some (mkSpec "out") })] }

def c7Exec : Executor := mkExecutor c7Graph [("d", [])]

/-- After the writes of one node execution, target `t` carries `result` at
property `p`. -/
def WroteP (t p : String) (result : Value) (g : NxDiGraph) : Prop :=
  pyGet ((g.nodeBag t).getD []) p = some result

/-- The value of property `p` on data node `nid` in the final state of an
`execute` run. -/
def finalDataValue (r : Except NxException (Executor × Bool)) (nid p : String) :
    Option Value :=
  match r with
  | .ok (E', _) => pyGet ((E'.G.nodeBag nid).getD []) p
  | .error _ => none

/-- C8 counterexample graph: one computation `c` (result 7) with two
`OUTPUT_TO` relationships to the same data node `d`, naming properties `p`
and `q`. -/
def c8Graph : ComputationGraph :=
  { id := "g8"
    computation_nodes := [("c", mkCompNode "c" 0 (.intLit 7))]
    computation_relationships :=
      [("p1", { id := "p1", source_id := "c", target_id := "d", name := "p1",
                relation_type := .OUTPUT_TO, level := "property",
                data_output := some (mkSpec "p") }),
       ("p2", { id := "p2", source_id := "c", target_id := "d", name := "p2",
                relation_type := .OUTPUT_TO, level := "property",
                data_output := some (mkSpec "q") })] }

/-- The `(vertex, is_computation value)` trace of a working graph: what the
data-vs-computation classification of every vertex looks like. -/
def nodeFlags (g : NxDiGraph) : List (String × Option Value) :=
  g.nodes.map (fun kv => (kv.1, pyGet kv.2 "is_computation"))

/-- C3 counterexample graph: a single computation vertex and no data. -/
def c3Graph : ComputationGraph :=
  { id := "g3"
    computation_nodes := [("c", mkCompNode "c" 0 (.intLit 0))] }

theorem keyLt_irrefl (a : Int × String) : ¬ keyLt a a := by
  rcases a with ⟨p, s⟩
  rintro (h | ⟨-, h⟩) <;> exact lt_irrefl _ h

theorem keyLt_trans {a b c : Int × String} (h1 : keyLt a b) (h2 : keyLt b c) :
    keyLt a c := by
  rcases a with ⟨pa, sa⟩; rcases b with ⟨pb, sb⟩; rcases c with ⟨pc, sc⟩
  rcases h1 with h1 | ⟨h1, h1s⟩ <;> rcases h2 with h2 | ⟨h2, h2s⟩
  · exact Or.inl (lt_trans h1 h2)
  · exact Or.inl (h2 ▸ h1)
  · exact Or.inl (h1 ▸ h2)
  · exact Or.inr ⟨h1.trans h2, lt_trans h1s h2s⟩

theorem keyLt_total (a b : Int × String) : keyLt a b ∨ a = b ∨ keyLt b a := by
  rcases a with ⟨pa, sa⟩; rcases b with ⟨pb, sb⟩
  rcases lt_trichotomy pa pb with h | h | h
  · exact Or.inl (Or.inl h)
  · rcases lt_trichotomy sa.data sb.data with hs | hs | hs
    · exact Or.inl (Or.inr ⟨h, hs⟩)
    · exact Or.inr (Or.inl (by rw [h, String.ext hs]))
    · exact Or.inr (Or.inr (Or.inr ⟨h.symm, hs⟩))
  · exact Or.inr (Or.inr (Or.inl h))

theorem minBy_mem (key : String → Int × String) :
    ∀ (l : List String) (n : String), minBy key n l ∈ n :: l := by
  intro l
  induction l with
  | nil => intro n; simp [minBy]
  | cons m rest ih =>
      intro n
      simp only [minBy]
      split
      · rcases List.mem_cons.mp (ih n) with h | h
        · simp [h]
        · simp [List.mem_cons_of_mem, h]
      · rcases List.mem_cons.mp (ih m) with h | h
        · simp [h]
        · simp [List.mem_cons_of_mem, h]

theorem minBy_min (key : String → Int × String) :
    ∀ (l : List String) (n : String), ∀ m ∈ n :: l, ¬ keyLt (key m) (key (minBy key n l)) := by
  intro l
  induction l with
  | nil =>
      intro n m hm
      rcases List.mem_singleton.mp hm with rfl
      simp only [minBy]
      exact keyLt_irrefl _
  | cons m0 rest ih =>
      intro n m hm
      rcases List.mem_cons.mp hm with hmn | hm'
      · rw [hmn]
        simp only [minBy]
        split
        case isTrue hlt => exact ih n n (List.mem_cons_self _ _)
        case isFalse hnlt =>
            intro hcon
            rcases keyLt_total (key n) (key m0) with h | h | h
            · exact hnlt h
            · rw [h] at hcon
              exact ih m0 m0 (List.mem_cons_self _ _) hcon
            · exact ih m0 m0 (List.mem_cons_self _ _) (keyLt_trans h hcon)
      · simp only [minBy]
        split
        case isTrue hlt =>
            rcases List.mem_cons.mp hm' with hmm | hm''
            · rw [hmm]
              intro hcon
              exact ih n n (List.mem_cons_self _ _) (keyLt_trans hlt hcon)
            · exact ih n m (List.mem_cons_of_mem _ hm'')
        case isFalse hnlt => exact ih m0 m hm'

theorem pickMin_eq_none {key : String → Int × String} {l : List String}
    (h : pickMin key l = none) : l = [] := by
  cases l with
  | nil => rfl
  | cons a rest => exact Option.noConfusion h

theorem pickMin_mem {key : String → Int × String} {l : List String} {n : String}
    (h : pickMin key l = some n) : n ∈ l := by
  cases l with
  | nil => exact Option.noConfusion h
  | cons a rest =>
      simp only [pickMin, Option.some.injEq] at h
      exact h ▸ minBy_mem key rest a

theorem pickMin_min {key : String → Int × String} {l : List String} {n : String}
    (h : pickMin key l = some n) : ∀ m ∈ l, ¬ keyLt (key m) (key n) := by
  cases l with
  | nil => exact fun m hm => absurd hm (List.not_mem_nil m)
  | cons a rest =>
      simp only [pickMin, Option.some.injEq] at h
      exact fun m hm => h ▸ minBy_min key rest a m hm

theorem eligible_mem {R : List String} {edges : List (String × String)} {n : String}
    (h : n ∈ eligible R edges) : n ∈ R :=
  (List.mem_filter.mp h).1

theorem eligible_not_blocked {R : List String} {edges : List (String × String)}
    {n u : String} (h : n ∈ eligible R edges) (hu : u ∈ R) (he : (u, n) ∈ edges) :
    False := by
  have h2 := (List.mem_filter.mp h).2
  simp only [List.any_eq_true, decide_eq_true_eq, not_exists, not_and,
    Bool.not_eq_true', decide_eq_false_iff_not] at h2
  exact h2 (u, n) he hu rfl

theorem eligible_erase {R : List String} {edges : List (String × String)}
    {x n : String} (hx : x ∈ eligible R edges) (hne : x ≠ n) :
    x ∈ eligible (R.erase n) edges := by
  refine List.mem_filter.mpr ⟨(List.mem_erase_of_ne hne).mpr (eligible_mem hx), ?_⟩
  have h2 := (List.mem_filter.mp hx).2
  simp only [List.any_eq_true, decide_eq_true_eq, not_exists, not_and,
    Bool.not_eq_true', decide_eq_false_iff_not] at h2 ⊢
  exact fun e he hmem => h2 e he (List.erase_subset _ _ hmem)

theorem lexTopoAux_mem {key : String → Int × String} {edges : List (String × String)} :
    ∀ {fuel : Nat} {R ord : List String},
      lexTopoAux key edges fuel R = some ord → ∀ x, (x ∈ ord ↔ x ∈ R) := by
  intro fuel
  induction fuel with
  | zero =>
      intro R ord h x
      simp only [lexTopoAux] at h
      split at h
      case isTrue hR => cases h; rw [hR]
      case isFalse hR => exact Option.noConfusion h
  | succ fuel ih =>
      intro R ord h x
      simp only [lexTopoAux] at h
      split at h
      case isTrue hR => cases h; rw [hR]
      case isFalse hR =>
          cases hp : pickMin key (eligible R edges) with
          | none => rw [hp] at h; exact Option.noConfusion h
          | some n =>
              rw [hp] at h
              rcases Option.map_eq_some'.mp h with ⟨ord', hsub, rfl⟩
              have hnR : n ∈ R := eligible_mem (pickMin_mem hp)
              constructor
              · intro hx
                rcases List.mem_cons.mp hx with rfl | hx'
                · exact hnR
                · exact List.erase_subset _ _ ((ih hsub x).mp hx')
              · intro hx
                by_cases hxn : x = n
                · exact hxn ▸ List.mem_cons_self _ _
                · exact List.mem_cons_of_mem _
                    ((ih hsub x).mpr ((List.mem_erase_of_ne hxn).mpr hx))

theorem lexTopoAux_precedes {key : String → Int × String}
    {edges : List (String × String)} {u v : String} (he : (u, v) ∈ edges) :
    ∀ {fuel : Nat} {R ord : List String},
      lexTopoAux key edges fuel R = some ord → u ∈ R → v ∈ R →
        precedesB ord u v = true := by
  intro fuel
  induction fuel with
  | zero =>
      intro R ord h hu hv
      simp only [lexTopoAux] at h
      split at h
      case isTrue hR => exact absurd (hR ▸ hu) (List.not_mem_nil u)
      case isFalse hR => exact Option.noConfusion h
  | succ fuel ih =>
      intro R ord h hu hv
      simp only [lexTopoAux] at h
      split at h
      case isTrue hR => exact absurd (hR ▸ hu) (List.not_mem_nil u)
      case isFalse hR =>
          cases hp : pickMin key (eligible R edges) with
          | none => rw [hp] at h; exact Option.noConfusion h
          | some n =>
              rw [hp] at h
              rcases Option.map_eq_some'.mp h with ⟨ord', hsub, rfl⟩
              by_cases hnv : n = v
              · exact (eligible_not_blocked (hnv ▸ pickMin_mem hp) hu he).elim
              by_cases hnu : n = u
              · subst hnu
                have hvmem : v ∈ ord' :=
                  (lexTopoAux_mem hsub v).mpr ((List.mem_erase_of_ne (Ne.symm hnv)).mpr hv)
                simp only [precedesB, if_pos rfl, List.any_eq_true, decide_eq_true_eq,
                  eq_self_iff_true, if_true]
                exact ⟨v, hvmem, rfl⟩
              · have hu' : u ∈ R.erase n := (List.mem_erase_of_ne (fun h' => hnu h'.symm)).mpr hu
                have hv' : v ∈ R.erase n := (List.mem_erase_of_ne (Ne.symm hnv)).mpr hv
                have hrec := ih hsub hu' hv'
                simpa [precedesB, if_neg hnu] using hrec

theorem sortReaches_subset {key : String → Int × String}
    {edges : List (String × String)} {R R' : List String}
    (h : SortReaches key edges R R') : ∀ x ∈ R', x ∈ R := by
  induction h with
  | refl R => exact fun x hx => hx
  | step n hp hrest ih => exact fun x hx => List.erase_subset _ _ (ih x hx)

theorem lexTopoAux_eligible_precedes {key : String → Int × String}
    {edges : List (String × String)} :
    ∀ {fuel : Nat} {R ord : List String} {x y : String},
      lexTopoAux key edges fuel R = some ord →
      x ∈ eligible R edges → y ∈ eligible R edges →
      keyLt (key x) (key y) → precedesB ord x y = true := by
  intro fuel
  induction fuel with
  | zero =>
      intro R ord x y h hx hy hk
      simp only [lexTopoAux] at h
      split at h
      case isTrue hR => exact absurd (hR ▸ eligible_mem hx) (List.not_mem_nil x)
      case isFalse hR => exact Option.noConfusion h
  | succ fuel ih =>
      intro R ord x y h hx hy hk
      simp only [lexTopoAux] at h
      split at h
      case isTrue hR => exact absurd (hR ▸ eligible_mem hx) (List.not_mem_nil x)
      case isFalse hR =>
          cases hp : pickMin key (eligible R edges) with
          | none => rw [hp] at h; exact Option.noConfusion h
          | some n =>
              rw [hp] at h
              rcases Option.map_eq_some'.mp h with ⟨ord', hsub, rfl⟩
              have hyn : y ≠ n := by
                intro hcon
                exact pickMin_min hp x hx (hcon ▸ hk)
              by_cases hxn : x = n
              · subst hxn
                have hymem : y ∈ ord' :=
                  (lexTopoAux_mem hsub y).mpr
                    ((List.mem_erase_of_ne hyn).mpr (eligible_mem hy))
                simp only [precedesB, if_pos rfl, List.any_eq_true, decide_eq_true_eq,
                  eq_self_iff_true, if_true]
                exact ⟨y, hymem, rfl⟩
              · have hx' := eligible_erase hx hxn
                have hy' := eligible_erase hy hyn
                have hrec := ih hsub hx' hy' hk
                simpa [precedesB, if_neg (Ne.symm hxn)] using hrec

theorem sortReaches_precedes {key : String → Int × String}
    {edges : List (String × String)} {R0 R : List String}
    (hr : SortReaches key edges R0 R) :
    ∀ {fuel : Nat} {ord : List String} {x y : String},
      lexTopoAux key edges fuel R0 = some ord →
      x ∈ eligible R edges → y ∈ eligible R edges →
      keyLt (key x) (key y) → precedesB ord x y = true := by
  induction hr with
  | refl R => exact fun h hx hy hk => lexTopoAux_eligible_precedes h hx hy hk
  | step n hp hrest ih =>
      intro fuel ord x y h hx hy hk
      rename_i R R'
      have hnR : n ∈ R := eligible_mem (pickMin_mem hp)
      cases fuel with
      | zero =>
          simp only [lexTopoAux] at h
          split at h
          case isTrue hRe => exact absurd (hRe ▸ hnR) (List.not_mem_nil n)
          case isFalse hRe => exact Option.noConfusion h
      | succ fuel =>
          simp only [lexTopoAux] at h
          split at h
          case isTrue hRe => exact absurd (hRe ▸ hnR) (List.not_mem_nil n)
          case isFalse hRe =>
              rw [hp] at h
              rcases Option.map_eq_some'.mp h with ⟨ord', hsub, rfl⟩
              have hpre := ih hsub hx hy hk
              by_cases hnx : n = x
              · subst hnx
                have hymem : y ∈ ord' :=
                  (lexTopoAux_mem hsub y).mpr
                    (sortReaches_subset hrest y (eligible_mem hy))
                simp only [precedesB, if_pos rfl, List.any_eq_true, decide_eq_true_eq,
                  eq_self_iff_true, if_true]
                exact ⟨y, hymem, rfl⟩
              · simpa [precedesB, if_neg hnx] using hpre

/-! ## Lemmas about dependency-graph construction -/

theorem addEdge_edges_mono {dep : DepGraph} {u v : String} {x : String × String}
    (h : x ∈ dep.edges) : x ∈ (dep.addEdge u v).edges := by
  simp only [DepGraph.addEdge]
  split
  · exact h
  · exact List.mem_append_left _ h

theorem addEdge_mem_edges (dep : DepGraph) (u v : String) :
    (u, v) ∈ (dep.addEdge u v).edges := by
  simp only [DepGraph.addEdge]
  split
  case isTrue h => exact h
  case isFalse h => exact List.mem_append_right _ (List.mem_singleton.mpr rfl)

theorem addEdge_nodes_mono {dep : DepGraph} {u v : String} {x : String}
    (h : x ∈ dep.nodes) : x ∈ (dep.addEdge u v).nodes := by
  simp only [DepGraph.addEdge]
  split <;> split <;>
    first
      | exact h
      | exact List.mem_append_left _ h
      | exact List.mem_append_left _ (List.mem_append_left _ h)

theorem addEdge_mem_nodes_fst (dep : DepGraph) (u v : String) :
    u ∈ (dep.addEdge u v).nodes := by
  simp only [DepGraph.addEdge]
  split
  case isTrue hu =>
      split
      case isTrue hv => exact hu
      case isFalse hv => exact List.mem_append_left _ hu
  case isFalse hu =>
      have : u ∈ dep.nodes ++ [u] := List.mem_append_right _ (List.mem_singleton.mpr rfl)
      split
      case isTrue hv => exact this
      case isFalse hv => exact List.mem_append_left _ this

theorem addEdge_mem_nodes_snd (dep : DepGraph) (u v : String) :
    v ∈ (dep.addEdge u v).nodes := by
  simp only [DepGraph.addEdge]
  split <;> split <;>
    first
      | assumption
      | exact List.mem_append_right _ (List.mem_singleton.mpr rfl)

theorem addEdge_wf {dep : DepGraph} (h : DepWF dep) (u v : String) :
    DepWF (dep.addEdge u v) := by
  intro e he
  have hsplit : e ∈ dep.edges ∨ e = (u, v) := by
    simp only [DepGraph.addEdge] at he
    split at he
    · exact Or.inl he
    · rcases List.mem_append.mp he with h' | h'
      · exact Or.inl h'
      · exact Or.inr (List.mem_singleton.mp h')
  rcases hsplit with h' | rfl
  · exact ⟨addEdge_nodes_mono (h e h').1, addEdge_nodes_mono (h e h').2⟩
  · exact ⟨addEdge_mem_nodes_fst dep u v, addEdge_mem_nodes_snd dep u v⟩

theorem depStep_edges_mono {α : Type} {step : DepGraph → α → DepGraph}
    (hs : DepStep step) {dep : DepGraph} (a : α) {x : String × String}
    (h : x ∈ dep.edges) : x ∈ (step dep a).edges := by
  rcases hs dep a with h' | ⟨u, v, h'⟩
  · rw [h']; exact h
  · rw [h']; exact addEdge_edges_mono h

theorem depStep_nodes_mono {α : Type} {step : DepGraph → α → DepGraph}
    (hs : DepStep step) {dep : DepGraph} (a : α) {x : String}
    (h : x ∈ dep.nodes) : x ∈ (step dep a).nodes := by
  rcases hs dep a with h' | ⟨u, v, h'⟩
  · rw [h']; exact h
  · rw [h']; exact addEdge_nodes_mono h

theorem depStep_wf {α : Type} {step : DepGraph → α → DepGraph}
    (hs : DepStep step) {dep : DepGraph} (h : DepWF dep) (a : α) :
    DepWF (step dep a) := by
  rcases hs dep a with h' | ⟨u, v, h'⟩
  · rw [h']; exact h
  · rw [h']; exact addEdge_wf h u v

theorem foldl_dep_edges_mono {α : Type} {step : DepGraph → α → DepGraph}
    (hs : DepStep step) :
    ∀ (l : List α) (dep : DepGraph) (x : String × String),
      x ∈ dep.edges → x ∈ (l.foldl step dep).edges := by
  intro l
  induction l with
  | nil => exact fun dep x h => h
  | cons a rest ih =>
      intro dep x h
      simp only [List.foldl_cons]
      exact ih (step dep a) x (depStep_edges_mono hs a h)

theorem foldl_dep_nodes_mono {α : Type} {step : DepGraph → α → DepGraph}
    (hs : DepStep step) :
    ∀ (l : List α) (dep : DepGraph) (x : String),
      x ∈ dep.nodes → x ∈ (l.foldl step dep).nodes := by
  intro l
  induction l with
  | nil => exact fun dep x h => h
  | cons a rest ih =>
      intro dep x h
      simp only [List.foldl_cons]
      exact ih (step dep a) x (depStep_nodes_mono hs a h)

theorem foldl_dep_wf {α : Type} {step : DepGraph → α → DepGraph}
    (hs : DepStep step) :
    ∀ (l : List α) (dep : DepGraph), DepWF dep → DepWF (l.foldl step dep) := by
  intro l
  induction l with
  | nil => exact fun dep h => h
  | cons a rest ih =>
      intro dep h
      simp only [List.foldl_cons]
      exact ih (step dep a) (depStep_wf hs h a)

theorem foldl_dep_edges_intro {α : Type} {step : DepGraph → α → DepGraph}
    (hs : DepStep step) {a : α} {x : String × String}
    (hx : ∀ dep, x ∈ (step dep a).edges) :
    ∀ (l : List α), a ∈ l → ∀ (dep : DepGraph), x ∈ (l.foldl step dep).edges := by
  intro l
  induction l with
  | nil => intro h; exact absurd h (List.not_mem_nil a)
  | cons b rest ih =>
      intro hmem dep
      simp only [List.foldl_cons]
      rcases List.mem_cons.mp hmem with rfl | h'
      · exact foldl_dep_edges_mono hs rest (step dep a) x (hx dep)
      · exact ih h' (step dep b)

theorem depEdgeStep_isStep : DepStep depEdgeStep := by
  intro dep e
  unfold depEdgeStep
  split
  · exact Or.inr ⟨e.1, e.2.1, rfl⟩
  · exact Or.inl rfl

theorem inferInner_isStep (out : String × String × Option String) :
    DepStep (inferInner out) := by
  intro dep rd
  unfold inferInner
  split
  · exact Or.inr ⟨out.1, rd.2.1, rfl⟩
  · exact Or.inl rfl

theorem inferOuter_edges_mono (reads : List (String × String × Option String)) :
    ∀ (outs : List (String × String × Option String)) (dep : DepGraph)
      (x : String × String), x ∈ dep.edges →
      x ∈ (outs.foldl (inferOuter reads) dep).edges := by
  intro outs
  induction outs with
  | nil => exact fun dep x h => h
  | cons o rest ih =>
      intro dep x h
      simp only [List.foldl_cons]
      exact ih (inferOuter reads dep o) x
        (foldl_dep_edges_mono (inferInner_isStep o) reads dep x h)

theorem inferOuter_nodes_mono (reads : List (String × String × Option String)) :
    ∀ (outs : List (String × String × Option String)) (dep : DepGraph)
      (x : String), x ∈ dep.nodes →
      x ∈ (outs.foldl (inferOuter reads) dep).nodes := by
  intro outs
  induction outs with
  | nil => exact fun dep x h => h
  | cons o rest ih =>
      intro dep x h
      simp only [List.foldl_cons]
      exact ih (inferOuter reads dep o) x
        (foldl_dep_nodes_mono (inferInner_isStep o) reads dep x h)

theorem inferOuter_wf (reads : List (String × String × Option String)) :
    ∀ (outs : List (String × String × Option String)) (dep : DepGraph),
      DepWF dep → DepWF (outs.foldl (inferOuter reads) dep) := by
  intro outs
  induction outs with
  | nil => exact fun dep h => h
  | cons o rest ih =>
      intro dep h
      simp only [List.foldl_cons]
      exact ih (inferOuter reads dep o)
        (foldl_dep_wf (inferInner_isStep o) reads dep h)

/-- Every `DEPENDS_ON`-labelled working-graph edge lands in the dependency
graph. -/
theorem dep_edges_of_G {E : Executor} {s t : String} {a : EdgeAttr}
    (hmem : (s, t, a) ∈ E.G.edges) (hrt : a.relation_type = "DEPENDS_ON") :
    (s, t) ∈ (get_dependency_graph E).edges := by
  unfold get_dependency_graph
  apply inferOuter_edges_mono
  refine foldl_dep_edges_intro depEdgeStep_isStep ?_ E.G.edges hmem _
  intro dep
  unfold depEdgeStep
  rw [if_pos hrt]
  exact addEdge_mem_edges dep s t

/-- Every inferred writer-before-reader pair lands in the dependency
graph. -/
theorem dep_edges_of_inferred {E : Executor}
    {out rd : String × String × Option String}
    (hout : out ∈ outputTriples E.graph) (hrd : rd ∈ readTriples E.graph)
    (hdn : out.2.1 = rd.1) (hprop : out.2.2 = rd.2.2) (hne : out.1 ≠ rd.2.1) :
    (out.1, rd.2.1) ∈ (get_dependency_graph E).edges := by
  unfold get_dependency_graph
  have hx : ∀ dep, (out.1, rd.2.1) ∈ (inferInner out dep rd).edges := by
    intro dep
    unfold inferInner
    rw [if_pos ⟨hdn, hprop, hne⟩]
    exact addEdge_mem_edges dep out.1 rd.2.1
  have core : ∀ (outs : List (String × String × Option String)), out ∈ outs →
      ∀ dep, (out.1, rd.2.1) ∈ (outs.foldl (inferOuter (readTriples E.graph)) dep).edges := by
    intro outs
    induction outs with
    | nil => intro h; exact absurd h (List.not_mem_nil out)
    | cons o rest ih =>
        intro hmem dep
        simp only [List.foldl_cons]
        rcases List.mem_cons.mp hmem with rfl | h'
        · exact inferOuter_edges_mono _ rest _ _
            (foldl_dep_edges_intro (inferInner_isStep out) hx (readTriples E.graph) hrd dep)
        · exact ih h' (inferOuter (readTriples E.graph) dep o)
  exact core _ hout _

/-- The dependency graph is well-formed: edge endpoints are vertices. -/
theorem dep_graph_wf (E : Executor) : DepWF (get_dependency_graph E) := by
  unfold get_dependency_graph
  apply inferOuter_wf
  apply foldl_dep_wf depEdgeStep_isStep
  intro e he
  exact absurd he (List.not_mem_nil e)

/-! ## Lemmas about working-graph construction -/

theorem setEdgeAttr_mem_new (l : List (String × String × EdgeAttr))
    (s t : String) (a : EdgeAttr) : (s, t, a) ∈ NxDiGraph.setEdgeAttr l s t a := by
  induction l with
  | nil => exact List.mem_singleton.mpr rfl
  | cons e rest ih =>
      rcases e with ⟨u, v, b⟩
      simp only [NxDiGraph.setEdgeAttr]
      split
      case isTrue h => exact h.1 ▸ h.2 ▸ List.mem_cons_self _ _
      case isFalse h => exact List.mem_cons_of_mem _ ih

theorem setEdgeAttr_mem_other {l : List (String × String × EdgeAttr)}
    {u v : String} {b : EdgeAttr} (hmem : (u, v, b) ∈ l) {s t : String}
    {a : EdgeAttr} (hne : ¬ (u = s ∧ v = t)) :
    (u, v, b) ∈ NxDiGraph.setEdgeAttr l s t a := by
  induction l with
  | nil => exact absurd hmem (List.not_mem_nil _)
  | cons e rest ih =>
      rcases e with ⟨u', v', b'⟩
      simp only [NxDiGraph.setEdgeAttr]
      rcases List.mem_cons.mp hmem with heq | hmem'
      · injection heq with h1 h2
        injection h2 with h2 h3
        subst h1; subst h2; subst h3
        split
        case isTrue h => exact absurd h hne
        case isFalse h => exact List.mem_cons_self _ _
      · split
        case isTrue h => exact List.mem_cons_of_mem _ hmem'
        case isFalse h => exact List.mem_cons_of_mem _ (ih hmem')

theorem addNode_edges (g : NxDiGraph) (id : String) (attrs : PropBag) :
    (g.addNode id attrs).edges = g.edges := by
  unfold NxDiGraph.addNode
  split <;> rfl

theorem addEdge_mem_self (g : NxDiGraph) (s t : String) (a : EdgeAttr) :
    (s, t, a) ∈ (g.addEdge s t a).edges := by
  unfold NxDiGraph.addEdge
  simp only [addNode_edges]
  exact setEdgeAttr_mem_new _ s t a

theorem addEdge_mem_other {g : NxDiGraph} {u v : String} {b : EdgeAttr}
    (hmem : (u, v, b) ∈ g.edges) {s t : String} {a : EdgeAttr}
    (hne : ¬ (u = s ∧ v = t)) : (u, v, b) ∈ (g.addEdge s t a).edges := by
  unfold NxDiGraph.addEdge
  simp only [addNode_edges]
  exact setEdgeAttr_mem_other hmem hne

theorem relEdgeStep_pres {g : NxDiGraph} {s t : String}
    (kv : String × ComputationRelationship)
    (hside : kv.2.source_id = s → kv.2.target_id = t →
      kv.2.relation_type = ComputationRelationType.DEPENDS_ON)
    (h : HasDepEdge g s t) : HasDepEdge (relEdgeStep g kv) s t := by
  rcases h with ⟨a, hmem, hrt⟩
  unfold relEdgeStep
  cases hrel : kv.2.relation_type with
  | DEPENDS_ON =>
      by_cases hpair : kv.2.source_id = s ∧ kv.2.target_id = t
      · rcases hpair with ⟨h1, h2⟩
        rw [h1, h2]
        exact ⟨_, addEdge_mem_self g s t _, rfl⟩
      · refine ⟨a, addEdge_mem_other hmem ?_, hrt⟩
        intro hcon
        exact hpair ⟨hcon.1.symm, hcon.2.symm⟩
  | OUTPUT_TO =>
      by_cases hpair : kv.2.source_id = s ∧ kv.2.target_id = t
      · exact absurd (hside hpair.1 hpair.2) (by rw [hrel]; intro h'; exact ComputationRelationType.noConfusion h')
      · refine ⟨a, addEdge_mem_other hmem ?_, hrt⟩
        intro hcon
        exact hpair ⟨hcon.1.symm, hcon.2.symm⟩

theorem relEdgeStep_make (g : NxDiGraph) (kv : String × ComputationRelationship)
    (hrt : kv.2.relation_type = ComputationRelationType.DEPENDS_ON) :
    HasDepEdge (relEdgeStep g kv) kv.2.source_id kv.2.target_id := by
  unfold relEdgeStep
  rw [hrt]
  exact ⟨_, addEdge_mem_self g _ _ _, rfl⟩

theorem relFold_hasDep {s t : String} :
    ∀ (rels : List (String × ComputationRelationship)) (g : NxDiGraph),
      (HasDepEdge g s t ∨ ∃ kv ∈ rels,
        kv.2.relation_type = ComputationRelationType.DEPENDS_ON ∧
        kv.2.source_id = s ∧ kv.2.target_id = t) →
      (∀ kv ∈ rels, kv.2.source_id = s → kv.2.target_id = t →
        kv.2.relation_type = ComputationRelationType.DEPENDS_ON) →
      HasDepEdge (rels.foldl relEdgeStep g) s t := by
  intro rels
  induction rels with
  | nil =>
      intro g hstart hside
      rcases hstart with h | ⟨kv, hkv, -⟩
      · exact h
      · exact absurd hkv (List.not_mem_nil kv)
  | cons kv rest ih =>
      intro g hstart hside
      simp only [List.foldl_cons]
      have hsideRest : ∀ kv' ∈ rest, kv'.2.source_id = s → kv'.2.target_id = t →
          kv'.2.relation_type = ComputationRelationType.DEPENDS_ON :=
        fun kv' h' => hside kv' (List.mem_cons_of_mem _ h')
      rcases hstart with h | ⟨kv', hkv', hprops⟩
      · exact ih (relEdgeStep g kv)
          (Or.inl (relEdgeStep_pres kv (hside kv (List.mem_cons_self _ _)) h)) hsideRest
      · rcases List.mem_cons.mp hkv' with rfl | hmem'
        · rcases hprops with ⟨hrt, h1, h2⟩
          exact ih (relEdgeStep g kv')
            (Or.inl (h1 ▸ h2 ▸ relEdgeStep_make g kv' hrt)) hsideRest
        · exact ih (relEdgeStep g kv) (Or.inr ⟨kv', hmem', hprops⟩) hsideRest

theorem mem_outputTriples {graph : ComputationGraph}
    {kv : String × ComputationRelationship}
    (h : kv ∈ graph.computation_relationships)
    (hrt : kv.2.relation_type = ComputationRelationType.OUTPUT_TO)
    {dd : OutputSpec} (hdd : kv.2.data_output = some dd) :
    (kv.2.source_id, kv.2.target_id, dd.property_name) ∈ outputTriples graph := by
  refine List.mem_filterMap.mpr ⟨kv, h, ?_⟩
  rw [hrt, hdd]

theorem mem_readTriples {graph : ComputationGraph}
    {kv : String × ComputationRelationship}
    (h : kv ∈ graph.computation_relationships)
    (hrt : kv.2.relation_type = ComputationRelationType.DEPENDS_ON)
    {ds : OutputSpec} (hds : kv.2.datasource = some ds) :
    (kv.2.source_id, kv.2.target_id, ds.property_name) ∈ readTriples graph := by
  refine List.mem_filterMap.mpr ⟨kv, h, ?_⟩
  rw [hrt, hds]

theorem exec_order_some {E : Executor} {ord : List String}
    (h : get_execution_order E = .ok (some ord)) :
    lexTopoAux (sortKey E.G) (get_dependency_graph E).edges
      (get_dependency_graph E).nodes.length (get_dependency_graph E).nodes = some ord := by
  unfold get_execution_order lexicographical_topological_sort at h
  cases hs : lexTopoAux (sortKey E.G) (get_dependency_graph E).edges
      (get_dependency_graph E).nodes.length (get_dependency_graph E).nodes with
  | some o =>
      rw [hs] at h
      have h3 : o = ord := Option.some.inj (Except.ok.inj h)
      rw [h3]
  | none =>
      rw [hs] at h
      exact Except.noConfusion h

/-- Any edge of the dependency graph is respected by an execution order. -/
theorem order_respects_dep_edge {E : Executor} {ord : List String}
    (hord : get_execution_order E = .ok (some ord)) {u v : String}
    (he : (u, v) ∈ (get_dependency_graph E).edges) :
    precedesB ord u v = true := by
  have hwf := dep_graph_wf E (u, v) he
  exact lexTopoAux_precedes he (exec_order_some hord) hwf.1 hwf.2

/-! ## Concrete instances used by counterexamples and witnesses -/

/-! ## Claim C1 -/

/-- C1, counterexample to the claim as stated: `c1Graph` has an acyclic
dependency graph and its relationship `r1` is `DEPENDS_ON` with source `b`
and target `a`, yet the produced execution order is `[a, b]`: the source of
the `DEPENDS_ON` edge does not precede its target, because the later
`OUTPUT_TO` relationship on the same `(b, a)` pair overwrote the edge label
in the working graph. -/
theorem C1_counterexample :
    get_execution_order (mkExecutor c1Graph []) = .ok (some ["a", "b"]) ∧
    (c1Graph.computation_relationships.map
      (fun kv => (kv.2.relation_type, kv.2.source_id, kv.2.target_id)) =
      [(ComputationRelationType.DEPENDS_ON, "b", "a"),
       (ComputationRelationType.OUTPUT_TO, "b", "a")]) ∧
    precedesB ["a", "b"] "b" "a" = false := by
  refine ⟨by decide, by decide, by decide⟩

/-- C1 (amended): for every executor built from a graph model and initial
data, if `execute`'s order exists then (i) every `DEPENDS_ON` relationship
whose `(source, target)` pair is shared by no `OUTPUT_TO` relationship has
its source strictly before its target in the order, and (ii) for every
inferred writer-before-reader pair — `OUTPUT_TO` relationship of A writing
property P on D, `DEPENDS_ON` relationship of B reading the same P from the
same D, A ≠ B — A is strictly before B in the order.  (The proviso in (i)
is forced by `C1_counterexample`: the working graph keeps one edge per
ordered pair, so a later relationship on the same pair overwrites the
`DEPENDS_ON` label.) -/
theorem C1_execution_order_respects_dependencies
    (graph : ComputationGraph) (ndm : List (String × PropBag)) (ord : List String)
    (hord : get_execution_order (mkExecutor graph ndm) = .ok (some ord)) :
    (∀ kv ∈ graph.computation_relationships,
        kv.2.relation_type = ComputationRelationType.DEPENDS_ON →
        (∀ kv' ∈ graph.computation_relationships,
          kv'.2.source_id = kv.2.source_id → kv'.2.target_id = kv.2.target_id →
          kv'.2.relation_type = ComputationRelationType.DEPENDS_ON) →
        precedesB ord kv.2.source_id kv.2.target_id = true) ∧
    (∀ ka ∈ graph.computation_relationships,
      ∀ kb ∈ graph.computation_relationships,
        ka.2.relation_type = ComputationRelationType.OUTPUT_TO →
        kb.2.relation_type = ComputationRelationType.DEPENDS_ON →
        ∀ dd ds, ka.2.data_output = some dd → kb.2.datasource = some ds →
          ka.2.target_id = kb.2.source_id → dd.property_name = ds.property_name →
          ka.2.source_id ≠ kb.2.target_id →
          precedesB ord ka.2.source_id kb.2.target_id = true) := by
  constructor
  · intro kv hkv hrt hside
    have hHas : HasDepEdge (mkExecutor graph ndm).G kv.2.source_id kv.2.target_id := by
      show HasDepEdge (build_networkx_graph graph ndm) _ _
      unfold build_networkx_graph
      exact relFold_hasDep _ _ (Or.inr ⟨kv, hkv, hrt, rfl, rfl⟩) hside
    rcases hHas with ⟨a, hmem, hart⟩
    exact order_respects_dep_edge hord (dep_edges_of_G hmem hart)
  · intro ka hka kb hkb hrta hrtb dd ds hdd hds htgt hprop hne
    exact order_respects_dep_edge hord
      (dep_edges_of_inferred (mem_outputTriples hka hrta hdd)
        (mem_readTriples hkb hrtb hds) htgt hprop hne)

/-- C1 witness: the amended theorem applied to `c1wGraph`, discharging both
provisos at a concrete input. -/
theorem C1_witness :
    precedesB ["calc1", "d", "calc2"] "d" "calc2" = true ∧
    precedesB ["calc1", "d", "calc2"] "calc1" "calc2" = true := by
  have h := C1_execution_order_respects_dependencies c1wGraph [("d", [])]
    ["calc1", "d", "calc2"] (by decide)
  refine ⟨?_, ?_⟩
  · exact h.1 ("w2", c1wRelW2) (by decide) rfl (by decide)
  · exact h.2 ("w1", c1wRelW1) (by decide) ("w2", c1wRelW2) (by decide) rfl rfl
      (mkSpec "p") (mkSpec "p") rfl rfl rfl rfl (by decide)

/-! ## Claim C5 -/

/-- C5: whenever two vertices are simultaneously eligible at some step of
the sort (both have zero in-degree in the remaining set `R`, reachable from
the initial vertex set), the one with strictly smaller sort key — lower
priority, ties broken by node id — appears strictly earlier in `execute`'s
order.  Re-running on the same graph and data yields identical results: the
embedding of `execute` is a pure function, so the two final conjuncts hold
definitionally (the source's order and results are likewise deterministic,
its iteration sources being insertion-ordered dicts and a heap). -/
theorem C5_priority_tie_break (E : Executor) (ord R : List String) (x y : String)
    (hord : get_execution_order E = .ok (some ord))
    (hreach : SortReaches (sortKey E.G) (get_dependency_graph E).edges
      (get_dependency_graph E).nodes R)
    (hx : x ∈ eligible R (get_dependency_graph E).edges)
    (hy : y ∈ eligible R (get_dependency_graph E).edges)
    (hk : keyLt (sortKey E.G x) (sortKey E.G y)) :
    precedesB ord x y = true ∧
    get_execution_order E = get_execution_order E ∧
    execute E = execute E :=
  ⟨sortReaches_precedes hreach (exec_order_some hord) hx hy hk, rfl, rfl⟩

/-- C5 witness: in `c5Graph` the two sibling computations are both eligible
at the first step; the priority-1 node precedes the priority-3 node. -/
theorem C5_witness :
    precedesB ["s1", "s2"] "s1" "s2" = true ∧
    get_execution_order (mkExecutor c5Graph []) =
      get_execution_order (mkExecutor c5Graph []) ∧
    execute (mkExecutor c5Graph []) = execute (mkExecutor c5Graph []) :=
  C5_priority_tie_break (mkExecutor c5Graph []) ["s1", "s2"]
    (get_dependency_graph (mkExecutor c5Graph [])).nodes "s1" "s2"
    (by decide) (SortReaches.refl _) (by decide) (by decide) (by decide)

/-! ## Claim C2 -/

/-- C2: on this cyclic dependency graph, `execute` does not return `False`
as its docstring promises: the topological sort raises `NetworkXUnfeasible`,
which the `except nx.NetworkXError` clause of `_get_execution_order` does
not catch (`NetworkXUnfeasible` subclasses `NetworkXAlgorithmError`, a
sibling of `NetworkXError`), so the exception escapes `execute`.  Moreover
no executor state at all can make `execute` return `ok False`: the only
path to `False` requires catching a `NetworkXError`, which the sort never
raises here. -/
theorem C2_cycle_raises_instead_of_false :
    execute (mkExecutor c2Graph [("d", []), ("e", [])]) =
      .error NxException.unfeasible ∧
    ∀ E : Executor, (∃ ford : Executor, execute E = .ok (ford, true)) ∨
      execute E = .error NxException.unfeasible := by
  constructor
  · decide
  · intro E
    unfold execute get_execution_order lexicographical_topological_sort
    cases h : lexTopoAux (sortKey E.G) (get_dependency_graph E).edges
        (get_dependency_graph E).nodes.length (get_dependency_graph E).nodes with
    | some order => exact Or.inl ⟨order.foldl execute_node E, rfl⟩
    | none => exact Or.inr rfl

/-! ## Claim C10 -/

/-- C10: `update_node_property` on a vertex absent from the working graph is
a silent no-op — the executor state, and hence `get_all_data_nodes`, is
unchanged and no error is signalled (the embedding is total). -/
theorem C10_update_missing_node_noop (E : Executor) (node_id prop : String)
    (v : Value) (h : E.G.hasNode node_id = false) :
    update_node_property E node_id prop v = E ∧
    get_all_data_nodes (update_node_property E node_id prop v) =
      get_all_data_nodes E := by
  have h1 : update_node_property E node_id prop v = E := by
    unfold update_node_property
    simp [h]
  exact ⟨h1, by rw [h1]⟩

theorem C10_witness :
    update_node_property wExec "ghost" "x" (Value.vint 9) = wExec ∧
    get_all_data_nodes (update_node_property wExec "ghost" "x" (Value.vint 9)) =
      get_all_data_nodes wExec :=
  C10_update_missing_node_noop wExec "ghost" "x" (Value.vint 9) (by decide)

/-! ## Claim C9 -/

/-- C9, counterexample to the claim as stated: `get_node_data` returns the
vertex's full attribute dict including the `is_computation` flag and the
engine-injected `priority`, and `get_all_data_nodes` keeps the injected
`priority` key (it drops only `is_computation`). -/
theorem C9_counterexample :
    get_node_data wExec "d" =
      some [("x", Value.vint 1), ("is_computation", Value.vbool false),
            ("priority", Value.vint 0)] ∧
    pyGet (get_all_data_nodes wExec) "d" =
      some [("x", Value.vint 1), ("priority", Value.vint 0)] := by
  constructor
  · decide
  · decide

theorem pyGet_filter_map {α β : Type} (q : α → Bool) (f : α → β) :
    ∀ (l : List (String × α)) (nid : String) (bag : α),
      pyGet l nid = some bag → q bag = true →
      pyGet ((l.filter (fun kv => q kv.2)).map (fun kv => (kv.1, f kv.2))) nid =
        some (f bag) := by
  intro l
  induction l with
  | nil => intro nid bag h _; exact Option.noConfusion h
  | cons kv rest ih =>
      intro nid bag h hq
      rcases kv with ⟨k, b⟩
      simp only [pyGet] at h
      by_cases hk : k = nid
      · rw [if_pos hk] at h
        injection h with hb
        subst hb
        simp only [List.filter_cons, hq, List.map_cons, pyGet, if_pos hk]
      · rw [if_neg hk] at h
        simp only [List.filter_cons]
        split
        · simp only [List.map_cons, pyGet, if_neg hk]
          exact ih nid bag h hq
        · exact ih nid bag h hq

theorem pyGet_pyErase_ne {α : Type} (d : List (String × α)) (key k : String)
    (hk : k ≠ key) : pyGet (pyErase d key) k = pyGet d k := by
  induction d with
  | nil => rfl
  | cons kv rest ih =>
      simp only [pyErase, List.filter_cons]
      split
      case isTrue h =>
          simp only [pyGet]
          by_cases hkk : kv.1 = k
          · rw [if_pos hkk, if_pos hkk]
          · rw [if_neg hkk, if_neg hkk]
            exact ih
      case isFalse h =>
          have hkey : kv.1 = key := by
            by_contra hcon
            exact h (by simpa using hcon)
          have hne : ¬ kv.1 = k := by
            rw [hkey]
            exact fun hcon => hk hcon.symm
          rw [show pyGet (kv :: rest) k = if kv.1 = k then some kv.2 else pyGet rest k from rfl]
          rw [if_neg hne]
          exact ih

theorem pyGet_pyErase_self {α : Type} (d : List (String × α)) (key : String) :
    pyGet (pyErase d key) key = none := by
  induction d with
  | nil => rfl
  | cons kv rest ih =>
      simp only [pyErase, List.filter_cons]
      split
      case isTrue h =>
          have hne : ¬ kv.1 = key := by simpa using h
          rw [show pyGet (kv :: List.filter (fun kv => decide ¬ kv.1 = key) rest) key =
            if kv.1 = key then some kv.2
            else pyGet (List.filter (fun kv => decide ¬ kv.1 = key) rest) key from rfl]
          rw [if_neg hne]
          exact ih
      case isFalse h => exact ih

/-- C9 (amended): `get_node_data` excludes nothing — it returns the vertex's
full bag, bookkeeping keys included; `get_all_data_nodes` excludes exactly
the `is_computation` key of each data vertex (the injected `priority` key
and every caller-supplied or computation-written property remain, with
their values unchanged). -/
theorem C9_accessors_amended (E : Executor) (nid : String) (bag : PropBag)
    (h : E.G.nodeBag nid = some bag) :
    get_node_data E nid = some bag ∧
    (¬ (bagGetD bag "is_computation").truthy →
      pyGet (get_all_data_nodes E) nid = some (pyErase bag "is_computation")) ∧
    (∀ k, k ≠ "is_computation" →
      pyGet (pyErase bag "is_computation") k = pyGet bag k) ∧
    pyGet (pyErase bag "is_computation") "is_computation" = none := by
  refine ⟨h, ?_, ?_, ?_⟩
  · intro hq
    unfold get_all_data_nodes
    exact pyGet_filter_map (fun b => decide ¬ (bagGetD b "is_computation").truthy = true)
      (fun b => pyErase b "is_computation") E.G.nodes nid bag h (by simpa using hq)
  · exact fun k hk => pyGet_pyErase_ne bag "is_computation" k hk
  · exact pyGet_pyErase_self bag "is_computation"

/-- C9 amended-theorem witness at the concrete executor `wExec`. -/
theorem C9_witness :
    get_node_data wExec "d" =
      some [("x", Value.vint 1), ("is_computation", Value.vbool false),
            ("priority", Value.vint 0)] ∧
    pyGet (get_all_data_nodes wExec) "d" =
      some (pyErase [("x", Value.vint 1), ("is_computation", Value.vbool false),
            ("priority", Value.vint 0)] "is_computation") := by
  have h := C9_accessors_amended wExec "d"
    [("x", Value.vint 1), ("is_computation", Value.vbool false),
     ("priority", Value.vint 0)] (by decide)
  exact ⟨h.1, h.2.1 (by decide)⟩

/-! ## Claim C4 -/

theorem pyGet_isSome_of_mem {α : Type} :
    ∀ {l : List (String × α)} {k : String} {v : α},
      (k, v) ∈ l → (pyGet l k).isSome = true := by
  intro l
  induction l with
  | nil => intro k v h; exact absurd h (List.not_mem_nil _)
  | cons kv rest ih =>
      intro k v h
      rcases kv with ⟨k', v'⟩
      simp only [pyGet]
      by_cases hk : k' = k
      · rw [if_pos hk]; rfl
      · rw [if_neg hk]
        rcases List.mem_cons.mp h with heq | hmem
        · injection heq with h1 h2; exact absurd h1.symm hk
        · exact ih hmem

theorem map_replace_of_no_key {α : Type} (nid : String) (bag : α) :
    ∀ (l : List (String × α)), (∀ kv ∈ l, kv.1 ≠ nid) →
      l.map (fun nv => if nv.1 = nid then (nv.1, bag) else nv) = l := by
  intro l
  induction l with
  | nil => intro _; rfl
  | cons kv rest ih =>
      intro h
      simp only [List.map_cons]
      rw [if_neg (h kv (List.mem_cons_self _ _)),
        ih (fun kv' h' => h kv' (List.mem_cons_of_mem _ h'))]

theorem map_replace_self {α : Type} (nid : String) (bag : α) :
    ∀ (l : List (String × α)), (l.map Prod.fst).Nodup → (nid, bag) ∈ l →
      l.map (fun nv => if nv.1 = nid then (nv.1, bag) else nv) = l := by
  intro l
  induction l with
  | nil => intro _ h; exact absurd h (List.not_mem_nil _)
  | cons kv rest ih =>
      intro hnd hmem
      rcases kv with ⟨k, b⟩
      simp only [List.map_cons, List.nodup_cons] at hnd
      rcases List.mem_cons.mp hmem with heq | hmem'
      · injection heq with h1 h2
        subst h1; subst h2
        have hno : ∀ kv' ∈ rest, kv'.1 ≠ nid := by
          intro kv' h' hcon
          exact hnd.1 (hcon ▸ List.mem_map_of_mem Prod.fst h')
        simp only [List.map_cons]
        rw [map_replace_of_no_key nid bag rest hno]
        simp
      · have hk : ¬ k = nid := by
          intro hcon
          subst hcon
          exact hnd.1 (List.mem_map_of_mem Prod.fst hmem')
        simp only [List.map_cons, if_neg hk]
        rw [ih hnd.2 hmem']

theorem restoreStep_self {E : Executor}
    (hnd : (E.G.nodes.map Prod.fst).Nodup) {kv : String × PropBag}
    (hmem : kv ∈ E.G.nodes) : restoreStep E kv = E := by
  unfold restoreStep
  have hhas : E.G.hasNode kv.1 = true := by
    unfold NxDiGraph.hasNode
    exact pyGet_isSome_of_mem (show (kv.1, kv.2) ∈ E.G.nodes from hmem)
  rw [hhas]
  simp only [if_true]
  rw [map_replace_self kv.1 kv.2 E.G.nodes hnd (show (kv.1, kv.2) ∈ E.G.nodes from hmem)]

/-- C4: snapshotting and immediately restoring is the identity on the whole
executor state (for the duplicate-free vertex lists the constructor and all
operations maintain), so `get_all_data_nodes` before and after agree
exactly. -/
theorem C4_snapshot_restore_roundtrip (E : Executor)
    (hnd : (E.G.nodes.map Prod.fst).Nodup) :
    restore_data_nodes E (snapshot_data_nodes E) = E ∧
    get_all_data_nodes (restore_data_nodes E (snapshot_data_nodes E)) =
      get_all_data_nodes E := by
  have hmain : ∀ (snap : List (String × PropBag)), (∀ kv ∈ snap, kv ∈ E.G.nodes) →
      snap.foldl restoreStep E = E := by
    intro snap
    induction snap with
    | nil => intro _; rfl
    | cons kv rest ih =>
        intro hsub
        simp only [List.foldl_cons]
        rw [restoreStep_self hnd (hsub kv (List.mem_cons_self _ _))]
        exact ih (fun kv' h' => hsub kv' (List.mem_cons_of_mem _ h'))
  have h1 : restore_data_nodes E (snapshot_data_nodes E) = E := by
    unfold restore_data_nodes
    exact hmain _ (fun kv h => (List.mem_filter.mp h).1)
  exact ⟨h1, by rw [h1]⟩

/-- C4 witness at the concrete executor `wExec`. -/
theorem C4_witness :
    restore_data_nodes wExec (snapshot_data_nodes wExec) = wExec ∧
    get_all_data_nodes (restore_data_nodes wExec (snapshot_data_nodes wExec)) =
      get_all_data_nodes wExec :=
  C4_snapshot_restore_roundtrip wExec (by decide)

/-! ## Claim C6 -/

theorem pyGet_eq_none {α : Type} :
    ∀ (l : List (String × α)) (k : String),
      pyGet l k = none ↔ k ∉ l.map Prod.fst := by
  intro l
  induction l with
  | nil => intro k; simp [pyGet]
  | cons kv rest ih =>
      intro k
      rcases kv with ⟨k', v⟩
      simp only [pyGet, List.map_cons, List.mem_cons]
      by_cases hk : k' = k
      · rw [if_pos hk]
        simp [hk]
      · rw [if_neg hk]
        rw [ih k]
        constructor
        · rintro h (h' | h')
          · exact hk h'.symm
          · exact h h'
        · intro h h'
          exact h (Or.inr h')

/-- Membership in `compute_diff`, unfolded. -/
theorem mem_compute_diff {baseline scenario : List (String × PropBag)}
    {e : DiffEntry} :
    e ∈ compute_diff baseline scenario ↔
      ∃ n ∈ (baseline.map Prod.fst ++ scenario.map Prod.fst).dedup,
        ∃ p ∈ (((pyGet baseline n).getD []).map Prod.fst ++
               ((pyGet scenario n).getD []).map Prod.fst).dedup,
          Value.pyEq (bagGetD ((pyGet baseline n).getD []) p)
            (bagGetD ((pyGet scenario n).getD []) p) = false ∧
          e = ⟨n, p, bagGetD ((pyGet baseline n).getD []) p,
                     bagGetD ((pyGet scenario n).getD []) p⟩ := by
  unfold compute_diff
  rw [List.mem_flatMap]
  constructor
  · rintro ⟨n, hn, he⟩
    rw [List.mem_filterMap] at he
    rcases he with ⟨p, hp, hpe⟩
    dsimp only at hpe
    split at hpe
    · exact Option.noConfusion hpe
    case isFalse hne =>
        injection hpe with hpe
        exact ⟨n, hn, p, hp, by simpa using hne, hpe.symm⟩
  · rintro ⟨n, hn, p, hp, hne, rfl⟩
    refine ⟨n, hn, ?_⟩
    rw [List.mem_filterMap]
    refine ⟨p, hp, ?_⟩
    rw [if_neg (by simpa using hne)]

/-- C6: the diff of a baseline/scenario pair contains an entry for a
`(node, property)` pair exactly when the two states disagree there, where a
node or property absent from one side reads as Python `None` (so pairs
present on only one side with a non-`None` value are reported as a change
from/to absent); and each entry records exactly the two looked-up values. -/
theorem C6_diff_completeness (baseline scenario : List (String × PropBag)) :
    (∀ n p : String,
      (∃ e ∈ compute_diff baseline scenario, e.node_id = n ∧ e.property_name = p) ↔
      Value.pyEq (bagGetD ((pyGet baseline n).getD []) p)
        (bagGetD ((pyGet scenario n).getD []) p) = false) ∧
    (∀ e ∈ compute_diff baseline scenario,
      e.baseline_value = bagGetD ((pyGet baseline e.node_id).getD []) e.property_name ∧
      e.scenario_value = bagGetD ((pyGet scenario e.node_id).getD []) e.property_name) := by
  constructor
  · intro n p
    constructor
    · rintro ⟨e, he, hn, hp⟩
      rcases mem_compute_diff.mp he with ⟨n', -, p', -, hne, rfl⟩
      simp only [DiffEntry.mk.injEq] at hn hp
      subst hn; subst hp
      exact hne
    · intro hne
      have hnmem : n ∈ (baseline.map Prod.fst ++ scenario.map Prod.fst).dedup := by
        rw [List.mem_dedup, List.mem_append]
        by_contra hcon
        push_neg at hcon
        rw [← pyGet_eq_none baseline n] at hcon
        rw [← pyGet_eq_none scenario n] at hcon
        rw [hcon.1, hcon.2] at hne
        simp [bagGetD, pyGet, Value.pyEq] at hne
      have hpmem : p ∈ (((pyGet baseline n).getD []).map Prod.fst ++
          ((pyGet scenario n).getD []).map Prod.fst).dedup := by
        rw [List.mem_dedup, List.mem_append]
        by_contra hcon
        push_neg at hcon
        rw [← pyGet_eq_none _ p] at hcon
        rw [← pyGet_eq_none _ p] at hcon
        unfold bagGetD at hne
        rw [hcon.1, hcon.2] at hne
        simp [Value.pyEq] at hne
      exact ⟨_, mem_compute_diff.mpr ⟨n, hnmem, p, hpmem, hne, rfl⟩, rfl, rfl⟩
  · intro e he
    rcases mem_compute_diff.mp he with ⟨n, -, p, -, -, rfl⟩
    exact ⟨rfl, rfl⟩

/-! ## Claim C7 -/

/-- A failed evaluation leaves the executor state exactly as it was. -/
theorem execute_node_fail {E : Executor} {n : String}
    (hfail : evalVertex ((E.G.nodeBag n).getD []) (gatherVariables E n) = none) :
    execute_node E n = E := by
  unfold execute_node
  cases hb : E.G.nodeBag n with
  | none => rfl
  | some bag =>
      rw [hb] at hfail
      simp only [Option.getD_some] at hfail
      show (if ¬ (bagGetD bag "is_computation").truthy then E
            else match evalVertex bag (gatherVariables E n) with
                 | none => E
                 | some result => { E with G := writeOutputs E.G n result }) = E
      split
      · rfl
      · rw [hfail]

/-- C7: when a node's expression evaluation raises at its place in the
order, that node's step is the identity on the working graph — every
`OUTPUT_TO` target keeps exactly the value it had — the remaining nodes are
still executed from the unchanged state, and `execute` still completes with
`True`. -/
theorem C7_node_failure_isolated (E : Executor) (pre post : List String) (n : String)
    (hord : get_execution_order E = .ok (some (pre ++ n :: post)))
    (hfail : evalVertex (((pre.foldl execute_node E).G.nodeBag n).getD [])
      (gatherVariables (pre.foldl execute_node E) n) = none) :
    execute_node (pre.foldl execute_node E) n = pre.foldl execute_node E ∧
    (pre ++ n :: post).foldl execute_node E =
      post.foldl execute_node (pre.foldl execute_node E) ∧
    execute E = .ok ((pre ++ n :: post).foldl execute_node E, true) := by
  have h1 : execute_node (pre.foldl execute_node E) n = pre.foldl execute_node E :=
    execute_node_fail hfail
  have h2 : (pre ++ n :: post).foldl execute_node E =
      post.foldl execute_node (pre.foldl execute_node E) := by
    rw [List.foldl_append, List.foldl_cons, h1]
  have h3 : execute E = .ok ((pre ++ n :: post).foldl execute_node E, true) := by
    unfold execute
    rw [hord]
  exact ⟨h1, h2, h3⟩

theorem C7_witness :
    execute_node ([].foldl execute_node c7Exec) "c1" = [].foldl execute_node c7Exec ∧
    (([] : List String) ++ "c1" :: ["d"]).foldl execute_node c7Exec =
      ["d"].foldl execute_node ([].foldl execute_node c7Exec) ∧
    execute c7Exec =
      .ok (((([] : List String) ++ "c1" :: ["d"]).foldl execute_node c7Exec), true) :=
  C7_node_failure_isolated c7Exec [] ["d"] "c1" (by decide) (by decide)

/-! ## Claim C8 -/

theorem pyGet_pySet_self {α : Type} :
    ∀ (l : List (String × α)) (k : String) (v : α),
      pyGet (pySet l k v) k = some v := by
  intro l
  induction l with
  | nil => intro k v; simp [pySet, pyGet]
  | cons kv rest ih =>
      intro k v
      rcases kv with ⟨k', v'⟩
      simp only [pySet]
      by_cases hk : k' = k
      · rw [if_pos hk]
        simp [pyGet, hk]
      · rw [if_neg hk]
        simp only [pyGet, if_neg hk]
        exact ih k v

theorem pyGet_pySet_ne {α : Type} :
    ∀ (l : List (String × α)) (k k' : String) (v : α), k' ≠ k →
      pyGet (pySet l k v) k' = pyGet l k' := by
  intro l
  induction l with
  | nil =>
      intro k k' v h
      simp only [pySet, pyGet]
      rw [if_neg (fun hcon => h hcon.symm)]
  | cons kv rest ih =>
      intro k k' v h
      rcases kv with ⟨k0, v0⟩
      simp only [pySet]
      by_cases hk : k0 = k
      · rw [if_pos hk]
        simp only [pyGet]
        rw [if_neg (fun hcon : k0 = k' => h (hk ▸ hcon ▸ rfl)), if_neg (by rw [hk]; exact fun hcon => h hcon.symm)]
      · rw [if_neg hk]
        simp only [pyGet]
        by_cases hk' : k0 = k'
        · rw [if_pos hk', if_pos hk']
        · rw [if_neg hk', if_neg hk']
          exact ih k k' v h

theorem nodeBag_setNodeProp_self {g : NxDiGraph} {id : String} {b : PropBag}
    (h : g.nodeBag id = some b) (p : String) (v : Value) :
    (g.setNodeProp id p v).nodeBag id = some (pySet b p v) := by
  unfold NxDiGraph.nodeBag NxDiGraph.setNodeProp at *
  revert h
  generalize g.nodes = l
  induction l with
  | nil => intro h; exact Option.noConfusion h
  | cons kv rest ih =>
      intro h
      simp only [pyGet] at h
      simp only [List.map_cons]
      by_cases hk : kv.1 = id
      · rw [if_pos hk] at h
        injection h with hb
        rw [if_pos hk]
        simp [pyGet, hk, hb]
      · rw [if_neg hk] at h
        rw [if_neg hk]
        simp only [pyGet, if_neg hk]
        exact ih h

theorem nodeBag_setNodeProp_other {g : NxDiGraph} {id t : String} (hne : t ≠ id)
    (p : String) (v : Value) :
    (g.setNodeProp id p v).nodeBag t = g.nodeBag t := by
  unfold NxDiGraph.nodeBag NxDiGraph.setNodeProp
  generalize g.nodes = l
  induction l with
  | nil => rfl
  | cons kv rest ih =>
      simp only [List.map_cons]
      by_cases hk : kv.1 = id
      · rw [if_pos hk]
        simp only [pyGet]
        rw [if_neg (by rw [hk]; exact fun hcon => hne hcon.symm),
          if_neg (by rw [hk]; exact fun hcon => hne hcon.symm)]
        exact ih
      · rw [if_neg hk]
        simp only [pyGet]
        by_cases hk' : kv.1 = t
        · rw [if_pos hk', if_pos hk']
        · rw [if_neg hk', if_neg hk']
          exact ih

theorem writeStep_isSome {n t : String} {result : Value} {acc : NxDiGraph}
    (h : (acc.nodeBag t).isSome = true) (e : String × String × EdgeAttr) :
    ((writeStep n result acc e).nodeBag t).isSome = true := by
  unfold writeStep
  split
  · split
    · split
      · exact h
      · by_cases ht : t = e.2.1
        · rcases Option.isSome_iff_exists.mp h with ⟨b, hb⟩
          rw [← ht, nodeBag_setNodeProp_self hb]
          rfl
        · rw [nodeBag_setNodeProp_other ht]
          exact h
    · exact h
  · exact h

theorem writeStep_pres {n t p : String} {result : Value} {acc : NxDiGraph}
    (h : WroteP t p result acc) (e : String × String × EdgeAttr) :
    WroteP t p result (writeStep n result acc e) := by
  unfold writeStep
  split
  · split
    case h_1 x pstr heq =>
        split
        · exact h
        · by_cases ht : t = e.2.1
          · unfold WroteP at h ⊢
            rw [← ht]
            cases hb : acc.nodeBag t with
            | none => rw [hb] at h; exact absurd h (by simp [pyGet])
            | some b =>
                rw [hb] at h
                rw [nodeBag_setNodeProp_self hb]
                simp only [Option.getD_some] at h ⊢
                by_cases hp : p = pstr
                · subst hp
                  rw [pyGet_pySet_self]
                · rw [pyGet_pySet_ne _ _ _ _ hp]
                  exact h
          · unfold WroteP at h ⊢
            rw [nodeBag_setNodeProp_other ht]
            exact h
    case h_2 => exact h
  · exact h

theorem writeFold_pres {n t p : String} {result : Value} :
    ∀ (l : List (String × String × EdgeAttr)) (acc : NxDiGraph),
      WroteP t p result acc →
      WroteP t p result (l.foldl (writeStep n result) acc) := by
  intro l
  induction l with
  | nil => exact fun acc h => h
  | cons e rest ih =>
      intro acc h
      simp only [List.foldl_cons]
      exact ih _ (writeStep_pres h e)

theorem writeStep_make {n t p : String} {result : Value} {acc : NxDiGraph}
    {a : EdgeAttr} (hrt : a.relation_type = "OUTPUT_TO")
    (hp : a.property_name = some p) (hne : p ≠ "")
    (hsome : (acc.nodeBag t).isSome = true) :
    WroteP t p result (writeStep n result acc (n, t, a)) := by
  unfold writeStep
  rw [if_pos ⟨rfl, hrt⟩]
  simp only [hp]
  rw [if_neg hne]
  rcases Option.isSome_iff_exists.mp hsome with ⟨b, hb⟩
  unfold WroteP
  rw [nodeBag_setNodeProp_self hb]
  simp only [Option.getD_some]
  exact pyGet_pySet_self b p result

theorem writeFold_make {n t p : String} {result : Value} {a : EdgeAttr}
    (hrt : a.relation_type = "OUTPUT_TO") (hp : a.property_name = some p)
    (hne : p ≠ "") :
    ∀ (l : List (String × String × EdgeAttr)) (acc : NxDiGraph),
      (n, t, a) ∈ l → (acc.nodeBag t).isSome = true →
      WroteP t p result (l.foldl (writeStep n result) acc) := by
  intro l
  induction l with
  | nil => intro acc h; exact absurd h (List.not_mem_nil _)
  | cons e rest ih =>
      intro acc hmem hsome
      simp only [List.foldl_cons]
      rcases List.mem_cons.mp hmem with rfl | hmem'
      · exact writeFold_pres rest _ (writeStep_make hrt hp hne hsome)
      · exact ih _ hmem' (writeStep_isSome hsome e)

/-- C8, counterexample to the claim as stated: both relationships of
`c8Graph` are `OUTPUT_TO` edges of `c` into `d`, and the run succeeds with
result 7, yet only `q` (the property of the relationship added last)
receives the value — `p` is never written, because a NetworkX `DiGraph`
keeps a single edge per ordered pair and `p2` overwrote `p1`'s
attributes. -/
theorem C8_counterexample :
    finalDataValue (execute (mkExecutor c8Graph [("d", [])])) "d" "p" = none ∧
    finalDataValue (execute (mkExecutor c8Graph [("d", [])])) "d" "q" =
      some (Value.vint 7) ∧
    (c8Graph.computation_relationships.map
      (fun kv => (kv.2.relation_type, kv.2.source_id, kv.2.target_id)) =
      [(ComputationRelationType.OUTPUT_TO, "c", "d"),
       (ComputationRelationType.OUTPUT_TO, "c", "d")]) := by
  exact ⟨by decide, by decide, by decide⟩

/-- C8 (amended): when a node's expression evaluates to `result`, then for
every working-graph edge that leaves it, is labelled `OUTPUT_TO` and names
a truthy property `p` — i.e. the property of the last relationship added
for that `(source, target)` pair — the target's bag receives `result` at
`p`; in particular all distinct targets receive the identical value.
(`C8_counterexample` forces the restriction from "every `OUTPUT_TO`
relationship" to "every `OUTPUT_TO` edge of the working graph".) -/
theorem C8_broadcast_amended (E : Executor) (n : String) (bag : PropBag)
    (result : Value) (hbag : E.G.nodeBag n = some bag)
    (hcomp : (bagGetD bag "is_computation").truthy = true)
    (heval : evalVertex bag (gatherVariables E n) = some result) :
    ∀ t p a, (n, t, a) ∈ E.G.edges → a.relation_type = "OUTPUT_TO" →
      a.property_name = some p → p ≠ "" → (E.G.nodeBag t).isSome = true →
      pyGet (((execute_node E n).G.nodeBag t).getD []) p = some result := by
  intro t p a hmem hrt hp hne hsome
  have hstep : execute_node E n = { E with G := writeOutputs E.G n result } := by
    unfold execute_node
    rw [hbag]
    show (if ¬ (bagGetD bag "is_computation").truthy then E
          else match evalVertex bag (gatherVariables E n) with
               | none => E
               | some result => { E with G := writeOutputs E.G n result }) = _
    rw [if_neg (by rw [hcomp]; exact fun hcon => hcon rfl), heval]
  rw [hstep]
  exact writeFold_make hrt hp hne E.G.edges E.G hmem hsome

/-- C8 witness: in `wExec`, the computation `c` evaluates to 1 and its
single `OUTPUT_TO` edge writes `d.y = 1`. -/
theorem C8_witness :
    pyGet (((execute_node wExec "c").G.nodeBag "d").getD []) "y" =
      some (Value.vint 1) :=
  C8_broadcast_amended wExec "c"
    [("name", Value.vstr "c"), ("code", Value.vexpr (.var "x")),
     ("engine", Value.vstr "python"), ("is_computation", Value.vbool true),
     ("priority", Value.vint 0)]
    (Value.vint 1) (by decide) (by decide) (by decide)
    "d" "y" ⟨"OUTPUT_TO", some "y"⟩ (by decide) rfl rfl (by decide) (by decide)

/-! ## Claim C3 -/

theorem setNodeProp_edges (g : NxDiGraph) (id p : String) (v : Value) :
    (g.setNodeProp id p v).edges = g.edges := rfl

theorem setNodeProp_flags {p : String} (hp : p ≠ "is_computation")
    (g : NxDiGraph) (id : String) (v : Value) :
    nodeFlags (g.setNodeProp id p v) = nodeFlags g := by
  unfold nodeFlags NxDiGraph.setNodeProp
  simp only [List.map_map]
  refine List.map_congr_left ?_
  intro kv _
  simp only [Function.comp_apply]
  split
  · simp only
    rw [pyGet_pySet_ne _ _ _ _ (fun hcon => hp hcon.symm)]
  · rfl

theorem nodeFlags_keys (g : NxDiGraph) :
    (nodeFlags g).map Prod.fst = g.nodes.map Prod.fst := by
  unfold nodeFlags
  simp [List.map_map, Function.comp]

theorem update_node_property_edges (E : Executor) (n p : String) (v : Value) :
    (update_node_property E n p v).G.edges = E.G.edges := by
  unfold update_node_property
  split <;> rfl

theorem update_node_property_graph (E : Executor) (n p : String) (v : Value) :
    (update_node_property E n p v).graph = E.graph := by
  unfold update_node_property
  split <;> rfl

theorem update_node_property_flags {p : String} (hp : p ≠ "is_computation")
    (E : Executor) (n : String) (v : Value) :
    nodeFlags (update_node_property E n p v).G = nodeFlags E.G := by
  unfold update_node_property
  split
  · exact setNodeProp_flags hp E.G n v
  · rfl

theorem applyChanges_edges :
    ∀ (changes : List (String × String × Value)) (E : Executor),
      (applyChanges E changes).G.edges = E.G.edges := by
  intro changes
  induction changes with
  | nil => exact fun E => rfl
  | cons c rest ih =>
      intro E
      unfold applyChanges at ih ⊢
      simp only [List.foldl_cons]
      rw [ih, update_node_property_edges]

theorem applyChanges_graph :
    ∀ (changes : List (String × String × Value)) (E : Executor),
      (applyChanges E changes).graph = E.graph := by
  intro changes
  induction changes with
  | nil => exact fun E => rfl
  | cons c rest ih =>
      intro E
      unfold applyChanges at ih ⊢
      simp only [List.foldl_cons]
      rw [ih, update_node_property_graph]

theorem applyChanges_flags :
    ∀ (changes : List (String × String × Value)),
      (∀ c ∈ changes, c.2.1 ≠ "is_computation") → ∀ (E : Executor),
      nodeFlags (applyChanges E changes).G = nodeFlags E.G := by
  intro changes
  induction changes with
  | nil => exact fun _ E => rfl
  | cons c rest ih =>
      intro hc E
      unfold applyChanges at ih ⊢
      simp only [List.foldl_cons]
      rw [ih (fun c' h' => hc c' (List.mem_cons_of_mem _ h')),
        update_node_property_flags (hc c (List.mem_cons_self _ _))]

theorem writeStep_edges (n : String) (result : Value) (acc : NxDiGraph)
    (e : String × String × EdgeAttr) :
    (writeStep n result acc e).edges = acc.edges := by
  unfold writeStep
  split
  · split
    · split <;> rfl
    · rfl
  · rfl

theorem writeStep_flags {n : String} {result : Value} {acc : NxDiGraph}
    {e : String × String × EdgeAttr}
    (he : e.2.2.property_name ≠ some "is_computation") :
    nodeFlags (writeStep n result acc e) = nodeFlags acc := by
  unfold writeStep
  split
  · split
    case h_1 x pstr heq =>
        split
        · rfl
        · refine setNodeProp_flags ?_ acc e.2.1 result
          intro hcon
          exact he (by rw [heq, hcon])
    case h_2 => rfl
  · rfl

theorem writeFold_edges {n : String} {result : Value} :
    ∀ (l : List (String × String × EdgeAttr)) (acc : NxDiGraph),
      (l.foldl (writeStep n result) acc).edges = acc.edges := by
  intro l
  induction l with
  | nil => exact fun acc => rfl
  | cons e rest ih =>
      intro acc
      simp only [List.foldl_cons]
      rw [ih, writeStep_edges]

theorem writeOutputs_edges (g : NxDiGraph) (n : String) (result : Value) :
    (writeOutputs g n result).edges = g.edges :=
  writeFold_edges g.edges g

theorem writeFold_flags {n : String} {result : Value} :
    ∀ (l : List (String × String × EdgeAttr)),
      (∀ e ∈ l, e.2.2.property_name ≠ some "is_computation") →
      ∀ (acc : NxDiGraph),
      nodeFlags (l.foldl (writeStep n result) acc) = nodeFlags acc := by
  intro l
  induction l with
  | nil => exact fun _ acc => rfl
  | cons e rest ih =>
      intro he acc
      simp only [List.foldl_cons]
      rw [ih (fun e' h' => he e' (List.mem_cons_of_mem _ h')),
        writeStep_flags (he e (List.mem_cons_self _ _))]

theorem execute_node_edges (E : Executor) (n : String) :
    (execute_node E n).G.edges = E.G.edges := by
  unfold execute_node
  split
  · rfl
  · split
    · rfl
    · split
      · rfl
      · exact writeOutputs_edges E.G n _

theorem execute_node_flags {E : Executor} (n : String)
    (hedge : ∀ e ∈ E.G.edges, e.2.2.property_name ≠ some "is_computation") :
    nodeFlags (execute_node E n).G = nodeFlags E.G := by
  unfold execute_node
  split
  · rfl
  · split
    · rfl
    · split
      · rfl
      · exact writeFold_flags E.G.edges hedge E.G

theorem execute_node_graph (E : Executor) (n : String) :
    (execute_node E n).graph = E.graph := by
  unfold execute_node
  split
  · rfl
  · split
    · rfl
    · split <;> rfl

theorem runOrder_edges_flags :
    ∀ (order : List String) (E : Executor),
      (∀ e ∈ E.G.edges, e.2.2.property_name ≠ some "is_computation") →
      (order.foldl execute_node E).G.edges = E.G.edges ∧
      nodeFlags (order.foldl execute_node E).G = nodeFlags E.G := by
  intro order
  induction order with
  | nil => exact fun E _ => ⟨rfl, rfl⟩
  | cons n rest ih =>
      intro E hedge
      simp only [List.foldl_cons]
      have hstep_e := execute_node_edges E n
      have hstep_f := execute_node_flags n hedge
      have hrec := ih (execute_node E n) (by rw [hstep_e]; exact hedge)
      exact ⟨by rw [hrec.1, hstep_e], by rw [hrec.2, hstep_f]⟩

/-- `execute` preserves the edge list and the vertex classification trace
when no `OUTPUT_TO` edge names the internal `is_computation` key. -/
theorem execute_edges_flags {E E2 : Executor} {b : Bool}
    (hedge : ∀ e ∈ E.G.edges, e.2.2.property_name ≠ some "is_computation")
    (hex : execute E = .ok (E2, b)) :
    E2.G.edges = E.G.edges ∧ nodeFlags E2.G = nodeFlags E.G := by
  unfold execute at hex
  cases ho : get_execution_order E with
  | error e => rw [ho] at hex; exact Except.noConfusion hex
  | ok oo =>
      rw [ho] at hex
      cases oo with
      | none =>
          injection hex with hx
          injection hx with h1 h2
          rw [← h1]
          exact ⟨rfl, rfl⟩
      | some order =>
          injection hex with hx
          injection hx with h1 h2
          rw [← h1]
          exact runOrder_edges_flags order E hedge

theorem hasNode_iff_mem (g : NxDiGraph) (k : String) :
    g.hasNode k = true ↔ k ∈ g.nodes.map Prod.fst := by
  unfold NxDiGraph.hasNode
  rw [Option.isSome_iff_ne_none]
  constructor
  · intro h
    by_contra hcon
    exact h ((pyGet_eq_none _ _).mpr hcon)
  · intro h hcon
    exact (pyGet_eq_none _ _).mp hcon h

theorem restoreStep_keys (E : Executor) (kv : String × PropBag) :
    (restoreStep E kv).G.nodes.map Prod.fst = E.G.nodes.map Prod.fst := by
  unfold restoreStep
  split
  · simp only [List.map_map]
    refine List.map_congr_left ?_
    intro nv _
    simp only [Function.comp_apply]
    split <;> rfl
  · rfl

theorem restore_fold_char :
    ∀ (snap : List (String × PropBag)) (E' : Executor),
      (snap.map Prod.fst).Nodup →
      (∀ kv ∈ snap, kv.1 ∈ E'.G.nodes.map Prod.fst) →
      (restore_data_nodes E' snap).G.nodes =
        E'.G.nodes.map (fun kv =>
          match pyGet snap kv.1 with
          | some b => (kv.1, b)
          | none => kv) := by
  intro snap
  induction snap with
  | nil =>
      intro E' _ _
      rw [show (fun kv : String × PropBag =>
        match pyGet ([] : List (String × PropBag)) kv.1 with
        | some b => (kv.1, b)
        | none => kv) = fun kv => kv from rfl]
      rw [List.map_id']
      rfl
  | cons hd rest ih =>
      intro E' hnd hmem
      rcases hd with ⟨nid, b⟩
      simp only [List.map_cons, List.nodup_cons] at hnd
      have hhas : E'.G.hasNode nid = true :=
        (hasNode_iff_mem E'.G nid).mpr (hmem (nid, b) (List.mem_cons_self _ _))
      have hstepNodes : (restoreStep E' (nid, b)).G.nodes =
          E'.G.nodes.map (fun nv => if nv.1 = nid then (nv.1, b) else nv) := by
        unfold restoreStep
        rw [if_pos (show E'.G.hasNode (nid, b).1 = true from hhas)]
      have hrec := ih (restoreStep E' (nid, b))
        hnd.2
        (by
          intro kv h
          rw [restoreStep_keys]
          exact hmem kv (List.mem_cons_of_mem _ h))
      unfold restore_data_nodes at hrec ⊢
      simp only [List.foldl_cons]
      rw [hrec, hstepNodes, List.map_map]
      refine List.map_congr_left ?_
      intro kv _
      simp only [Function.comp_apply]
      by_cases hk : kv.1 = nid
      · have hnone : pyGet rest nid = none := (pyGet_eq_none rest nid).mpr hnd.1
        rw [if_pos hk]
        simp [pyGet, hk, hnone]
      · rw [if_neg hk]
        simp [pyGet, if_neg (show ¬ nid = kv.1 from fun hcon => hk hcon.symm)]

theorem snap_lookup_data :
    ∀ (l0 : List (String × PropBag)), (l0.map Prod.fst).Nodup →
      ∀ kv ∈ l0, ¬ (bagGetD kv.2 "is_computation").truthy →
      pyGet (l0.filter
        (fun kv => ¬ (bagGetD kv.2 "is_computation").truthy)) kv.1 = some kv.2 := by
  intro l0
  induction l0 with
  | nil => intro _ kv h; exact absurd h (List.not_mem_nil _)
  | cons hd rest ih =>
      intro hnd kv hmem hdata
      simp only [List.map_cons, List.nodup_cons] at hnd
      rcases List.mem_cons.mp hmem with rfl | hmem'
      · simp only [List.filter_cons]
        rw [if_pos (by simpa using hdata)]
        simp [pyGet]
      · have hne : hd.1 ≠ kv.1 := by
          intro hcon
          exact hnd.1 (hcon ▸ List.mem_map_of_mem Prod.fst hmem')
        simp only [List.filter_cons]
        split
        · simp only [pyGet, if_neg hne]
          exact ih hnd.2 kv hmem' hdata
        · exact ih hnd.2 kv hmem' hdata

theorem snap_lookup_comp :
    ∀ (l0 : List (String × PropBag)), (l0.map Prod.fst).Nodup →
      ∀ kv ∈ l0, (bagGetD kv.2 "is_computation").truthy →
      pyGet (l0.filter
        (fun kv => ¬ (bagGetD kv.2 "is_computation").truthy)) kv.1 = none := by
  intro l0
  induction l0 with
  | nil => intro _ kv h; exact absurd h (List.not_mem_nil _)
  | cons hd rest ih =>
      intro hnd kv hmem hcomp
      simp only [List.map_cons, List.nodup_cons] at hnd
      rcases List.mem_cons.mp hmem with rfl | hmem'
      · simp only [List.filter_cons]
        rw [if_neg (by simpa using hcomp)]
        rw [(pyGet_eq_none _ _)]
        intro hcon
        rcases List.mem_map.mp hcon with ⟨kv', hkv', hfst⟩
        have := (List.mem_filter.mp hkv').1
        exact hnd.1 (hfst ▸ List.mem_map_of_mem Prod.fst this)
      · have hne : hd.1 ≠ kv.1 := by
          intro hcon
          exact hnd.1 (hcon ▸ List.mem_map_of_mem Prod.fst hmem')
        simp only [List.filter_cons]
        split
        · simp only [pyGet, if_neg hne]
          exact ih hnd.2 kv hmem' hcomp
        · exact ih hnd.2 kv hmem' hcomp

theorem getall_restored_core :
    ∀ (l' l0 snap : List (String × PropBag)),
      l'.map (fun kv => (kv.1, pyGet kv.2 "is_computation")) =
        l0.map (fun kv => (kv.1, pyGet kv.2 "is_computation")) →
      (∀ kv ∈ l0, ¬ (bagGetD kv.2 "is_computation").truthy →
        pyGet snap kv.1 = some kv.2) →
      (∀ kv ∈ l0, (bagGetD kv.2 "is_computation").truthy →
        pyGet snap kv.1 = none) →
      ((l'.map (fun kv =>
          match pyGet snap kv.1 with
          | some b => (kv.1, b)
          | none => kv)).filter
        (fun kv => ¬ (bagGetD kv.2 "is_computation").truthy)).map
        (fun kv => (kv.1, pyErase kv.2 "is_computation")) =
      (l0.filter (fun kv => ¬ (bagGetD kv.2 "is_computation").truthy)).map
        (fun kv => (kv.1, pyErase kv.2 "is_computation")) := by
  intro l'
  induction l' with
  | nil =>
      intro l0 snap hflags _ _
      cases l0 with
      | nil => rfl
      | cons hd rest => exact absurd hflags (by simp)
  | cons hd' t' ih =>
      intro l0 snap hflags hdata hcomp
      cases l0 with
      | nil => exact absurd hflags (by simp)
      | cons hd0 t0 =>
          simp only [List.map_cons, List.cons.injEq, Prod.mk.injEq] at hflags
          have hkey : hd'.1 = hd0.1 := hflags.1.1
          have hflag : pyGet hd'.2 "is_computation" = pyGet hd0.2 "is_computation" :=
            hflags.1.2
          have hbagD : bagGetD hd'.2 "is_computation" = bagGetD hd0.2 "is_computation" := by
            unfold bagGetD
            rw [hflag]
          by_cases hd0data : (bagGetD hd0.2 "is_computation").truthy
          · have hsnap : pyGet snap hd0.1 = none :=
              hcomp hd0 (List.mem_cons_self _ _) hd0data
            simp only [List.map_cons]
            rw [show (match pyGet snap hd'.1 with
              | some b => (hd'.1, b)
              | none => hd') = hd' by rw [hkey, hsnap]]
            simp only [List.filter_cons]
            rw [if_neg (by simpa [hbagD] using hd0data),
              if_neg (by simpa using hd0data)]
            exact ih t0 snap hflags.2
              (fun kv h => hdata kv (List.mem_cons_of_mem _ h))
              (fun kv h => hcomp kv (List.mem_cons_of_mem _ h))
          · have hsnap : pyGet snap hd0.1 = some hd0.2 :=
              hdata hd0 (List.mem_cons_self _ _) (by simpa using hd0data)
            simp only [List.map_cons]
            rw [show (match pyGet snap hd'.1 with
              | some b => (hd'.1, b)
              | none => hd') = (hd0.1, hd0.2) by rw [hkey, hsnap]]
            simp only [List.filter_cons]
            rw [if_pos (by simpa using hd0data), if_pos (by simpa using hd0data)]
            simp only [List.map_cons]
            exact congrArg _ (ih t0 snap hflags.2
              (fun kv h => hdata kv (List.mem_cons_of_mem _ h))
              (fun kv h => hcomp kv (List.mem_cons_of_mem _ h)))

/-- Restoring a pre-trial snapshot after any trial body that preserved the
vertex classification trace restores the observable data-node state. -/
theorem restored_getall (E E' : Executor)
    (hnd : (E.G.nodes.map Prod.fst).Nodup)
    (hflags : nodeFlags E'.G = nodeFlags E.G) :
    get_all_data_nodes (restore_data_nodes E' (snapshot_data_nodes E)) =
      get_all_data_nodes E := by
  have hsnapnd : ((snapshot_data_nodes E).map Prod.fst).Nodup := by
    unfold snapshot_data_nodes
    exact List.Nodup.sublist (List.Sublist.map _ (List.filter_sublist _)) hnd
  have hkeysE' : E'.G.nodes.map Prod.fst = E.G.nodes.map Prod.fst := by
    have h := congrArg (List.map Prod.fst) hflags
    rw [nodeFlags_keys, nodeFlags_keys] at h
    exact h
  have hmem : ∀ kv ∈ snapshot_data_nodes E, kv.1 ∈ E'.G.nodes.map Prod.fst := by
    intro kv h
    rw [hkeysE']
    unfold snapshot_data_nodes at h
    exact List.mem_map_of_mem Prod.fst (List.mem_filter.mp h).1
  have hchar := restore_fold_char (snapshot_data_nodes E) E' hsnapnd hmem
  unfold get_all_data_nodes
  rw [hchar]
  exact getall_restored_core E'.G.nodes E.G.nodes (snapshot_data_nodes E)
    (by unfold nodeFlags at hflags; exact hflags)
    (fun kv h hd => snap_lookup_data E.G.nodes hnd kv h hd)
    (fun kv h hc => snap_lookup_comp E.G.nodes hnd kv h hc)

/-- C3 (amended): a scenario run leaves `get_all_data_nodes` unchanged —
whether `execute` completes or raises, the `finally` restore wins — provided
no override names the internal `is_computation` key and no `OUTPUT_TO` edge
writes it (the proviso is forced by `C3_counterexample`: such a write can
flip a computation vertex into a data vertex, and computation vertices are
not part of the snapshot that the `finally` restores). -/
theorem C3_scenario_isolation (E : Executor) (changes : List (String × String × Value))
    (hnd : (E.G.nodes.map Prod.fst).Nodup)
    (hchg : ∀ c ∈ changes, c.2.1 ≠ "is_computation")
    (hedge : ∀ e ∈ E.G.edges, e.2.2.property_name ≠ some "is_computation") :
    get_all_data_nodes (run_scenario E changes).2 = get_all_data_nodes E := by
  unfold run_scenario
  have hflags1 : nodeFlags (applyChanges E changes).G = nodeFlags E.G :=
    applyChanges_flags changes hchg E
  have hedges1 : (applyChanges E changes).G.edges = E.G.edges :=
    applyChanges_edges changes E
  cases hex : execute (applyChanges E changes) with
  | error e =>
      simp only [hex]
      exact restored_getall E (applyChanges E changes) hnd hflags1
  | ok pr =>
      rcases pr with ⟨E2, b⟩
      have hflags2 := (execute_edges_flags (by rw [hedges1]; exact hedge) hex).2
      simp only [hex]
      exact restored_getall E E2 hnd (by rw [hflags2, hflags1])

/-- C3, counterexample to the claim as stated: overriding the internal
`is_computation` key of the computation vertex `c` to a falsy value makes
`get_all_data_nodes` differ before and after `run_scenario` — the flipped
vertex now shows up as a data node, and the `finally` restore cannot undo
it because the pre-trial snapshot only covered data vertices. -/
theorem C3_counterexample :
    get_all_data_nodes
        (run_scenario (mkExecutor c3Graph [])
          [("c", "is_computation", Value.vbool false)]).2 ≠
      get_all_data_nodes (mkExecutor c3Graph []) := by
  decide

/-- C3 witness: a benign override on `wExec` (no internal key is touched),
showing the amended isolation theorem at a concrete input. -/
theorem C3_witness :
    get_all_data_nodes (run_scenario wExec [("d", "x", Value.vint 2)]).2 =
      get_all_data_nodes wExec :=
  C3_scenario_isolation wExec [("d", "x", Value.vint 2)]
    (by decide) (by decide) (by decide)
